import Mathlib

/-!
# Verification of the `sliceheap` package (binary heap over slices)

This file shallowly embeds the Go package `sliceheap` (file `sliceheap.go`)
into Lean and proves properties about it.

Modelling conventions:
* A Go slice `[]T` is a `List T`; the ordering predicate is `less : T → T → Bool`.
* Go `int` indices are `Int`; Go's truncated integer division `/` is `Int.tdiv`.
* A Go slice access `h[i]` panics when `i` is out of range; we model every
  operation that can panic as returning an `Option`, where `none` is a panic.
* The `for` loops of `up`, `down` and `InitFunc` are written as structurally
  recursive functions on an explicit fuel argument, so they stay kernel
  computable. The wrappers pass fuel that provably exceeds the iteration
  count of the corresponding Go loop (each loop moves its index strictly
  monotonically), so the fuel never runs out; the specification lemmas below
  carry explicit fuel bounds and are instantiated at the wrappers' values.
-/

namespace Sliceheap

variable {T : Type}

/-- Go slice read `h[i]`: `none` models the out-of-range panic. -/
def idx (h : List T) (i : Int) : Option T :=
  if 0 ≤ i then h[i.toNat]? else none

/-- Go slice write `h[i] = x`. In the package every write is preceded by a
successful read of the same index, so the out-of-range case never executes;
`List.set` (a no-op when out of range) is then a faithful model. -/
def setIdx (h : List T) (i : Int) (x : T) : List T :=
  h.set i.toNat x

/-- Go parallel assignment `h[i], h[j] = h[j], h[i]`: both right-hand sides
are read first (`xi` and `xj` are those values), then both cells are written. -/
def swapAt (h : List T) (i j : Int) (xi xj : T) : List T :=
  setIdx (setIdx h i xj) j xi

/-- Child selection inside `down` (sliceheap.go lines 119-122):
`j := j1; if j2 := j1 + 1; j2 < n && less(h[j2], h[j1]) { j = j2 }`.
`&&` short-circuits, so the reads happen only when `j1+1 < n`. -/
def selChild (less : T → T → Bool) (h : List T) (n j1 : Int) : Option Int :=
  if j1 + 1 < n then
    match idx h (j1 + 1), idx h j1 with
    | some x2, some x1 => some (if less x2 x1 then j1 + 1 else j1)
    | _, _ => none
  else some j1

/-- The loop of `down` (sliceheap.go lines 112-130). State: current index `i`
(starting at `i0`); returns the final list and final index (the Go function
returns `i > i0`, computed by the `down` wrapper below). -/
def downLoopFuel (less : T → T → Bool) (n : Int) :
    Nat → List T → Int → Option (List T × Int)
  | 0, _, _ => none
  | fuel + 1, h, i =>
    let j1 := 2 * i + 1
    if j1 ≥ n ∨ j1 < 0 then some (h, i)
    else
      match selChild less h n j1 with
      | none => none
      | some j =>
        match idx h j, idx h i with
        | some xj, some xi =>
          if less xj xi then downLoopFuel less n fuel (swapAt h i j xi xj) j
          else some (h, i)
        | _, _ => none

/-- `down(h, i0, n, less)` (sliceheap.go lines 112-130). The loop index `i`
strictly increases and stays below `n` while the loop runs, so `n.toNat + 1`
fuel always suffices. Returns the list and the Go return value `i > i0`. -/
def down (h : List T) (i0 n : Int) (less : T → T → Bool) :
    Option (List T × Bool) :=
  (downLoopFuel less n (n.toNat + 1) h i0).map fun p => (p.1, decide (p.2 > i0))

/-- The loop of `up` (sliceheap.go lines 101-110). Go's `(j - 1) / 2` is
truncated division, `Int.tdiv`. -/
def upFuel (less : T → T → Bool) :
    Nat → List T → Int → Option (List T)
  | 0, _, _ => none
  | fuel + 1, h, j =>
    let i := Int.tdiv (j - 1) 2
    if i = j then some h
    else
      match idx h j, idx h i with
      | some xj, some xi =>
        if less xj xi then upFuel less fuel (swapAt h i j xi xj) i
        else some h
      | _, _ => none

/-- `up(h, j, less)` (sliceheap.go lines 101-110). The loop index strictly
decreases while nonnegative, so `j.toNat + 1` fuel always suffices. -/
def up (h : List T) (j : Int) (less : T → T → Bool) : Option (List T) :=
  upFuel less (j.toNat + 1) h j

/-- The loop of `InitFunc` (sliceheap.go lines 31-34):
`for i := n/2 - 1; i >= 0; i-- { down(h, i, n, less) }`. -/
def initLoopFuel (less : T → T → Bool) (n : Int) :
    Nat → List T → Int → Option (List T)
  | 0, _, _ => none
  | fuel + 1, h, i =>
    if 0 ≤ i then
      match down h i n less with
      | none => none
      | some (h', _) => initLoopFuel less n fuel h' (i - 1)
    else some h

/-- `InitFunc(h, less)` (sliceheap.go lines 29-35): heapify. The loop runs
`n/2` times, so `n.toNat / 2 + 1` fuel always suffices. -/
def InitFunc (h : List T) (less : T → T → Bool) : Option (List T) :=
  let n : Int := h.length
  initLoopFuel less n (n.toNat / 2 + 1) h (Int.tdiv n 2 - 1)

/-- `PushFunc(h, x, less)` (sliceheap.go lines 44-47):
`*h = append(*h, x); up(*h, len(*h)-1, less)`. -/
def PushFunc (h : List T) (x : T) (less : T → T → Bool) : Option (List T) :=
  up (h ++ [x]) ((h ++ [x]).length - 1) less

/-- `PopFunc(h, less)` (sliceheap.go lines 57-64):
`n := len(*h) - 1; x := (*h)[0]; (*h)[0] = (*h)[n]; *h = (*h)[:n];
down(*h, 0, n, less); return x`. Returns the popped value and the new slice. -/
def PopFunc (h : List T) (less : T → T → Bool) : Option (T × List T) :=
  let n : Int := (h.length : Int) - 1
  match idx h 0 with
  | none => none
  | some x =>
    match idx h n with
    | none => none
    | some lst =>
      match down ((setIdx h 0 lst).take n.toNat) 0 n less with
      | none => none
      | some (h', _) => some (x, h')

/-- `RemoveFunc(h, i, less)` (sliceheap.go lines 73-84). -/
def RemoveFunc (h : List T) (i : Int) (less : T → T → Bool) :
    Option (T × List T) :=
  let n : Int := (h.length : Int) - 1
  match idx h i with
  | none => none
  | some x =>
    if n = i then some (x, h.take n.toNat)
    else
      match idx h n with
      | none => none
      | some lst =>
        match down (setIdx h i lst) i n less with
        | none => none
        | some (h2, moved) =>
          if moved then some (x, h2.take n.toNat)
          else
            match up h2 i less with
            | none => none
            | some h3 => some (x, h3.take n.toNat)

/-- `FixFunc(h, i, less)` (sliceheap.go lines 95-99):
`if !down(h, i, len(h), less) { up(h, i, less) }`. -/
def FixFunc (h : List T) (i : Int) (less : T → T → Bool) : Option (List T) :=
  match down h i (h.length : Int) less with
  | none => none
  | some (h', moved) => if moved then some h' else up h' i less

/-- Iterated popping: pop `k` times, collecting the returned values in order
together with the final slice. Used to state the extraction claims. -/
def popN (less : T → T → Bool) : Nat → List T → Option (List T × List T)
  | 0, h => some ([], h)
  | k + 1, h =>
    match PopFunc h less with
    | none => none
    | some (x, h') =>
      match popN less k h' with
      | none => none
      | some (out, rest) => some (x :: out, rest)

/-- Left fold of `PushFunc` over a list of values, starting from `acc`.
Used to state the push/pop duality claim. -/
def pushAll (less : T → T → Bool) : List T → List T → Option (List T)
  | [], acc => some acc
  | x :: xs, acc =>
    match PushFunc acc x less with
    | none => none
    | some acc' => pushAll less xs acc'

/-! ## The heap invariant and ordering assumptions -/

/-- `c` is a child position of `p` in the array layout of a complete binary
tree: `c = 2p+1` or `c = 2p+2`. -/
def chld (p c : Nat) : Prop := c = 2 * p + 1 ∨ c = 2 * p + 2

instance (p c : Nat) : Decidable (chld p c) := by unfold chld; infer_instance

/-- Parent position: `(c-1)/2` (on `Nat`; meaningful for `c ≥ 1`). -/
def par (c : Nat) : Nat := (c - 1) / 2

/-- The pair of positions `(p, c)` is heap-ordered in `h`: whenever both
positions hold values, the value at `c` does not compare strictly before the
value at `p`. Positions outside the list impose no constraint. -/
def EdgeOK (less : T → T → Bool) (h : List T) (p c : Nat) : Prop :=
  ∀ x y, h[c]? = some x → h[p]? = some y → less x y = false

/-- The heap-property invariant of the spec: for all indices `i` with
existing children `2i+1`/`2i+2`, `less(child, parent)` is false. -/
def HeapInv (less : T → T → Bool) (h : List T) : Prop :=
  ∀ p c : Nat, chld p c → EdgeOK less h p c

/-- The heap invariant restricted to the first `n` positions (the logical
length used by `down`). -/
def HeapInvN (less : T → T → Bool) (h : List T) (n : Nat) : Prop :=
  ∀ p c : Nat, chld p c → c < n → EdgeOK less h p c

/-- Executable check for `HeapInv`, for evaluating concrete instances. -/
def heapChk (less : T → T → Bool) (h : List T) : Bool :=
  (List.range h.length).all fun c =>
    match h[c]?, h[(c - 1) / 2]? with
    | some x, some y => c == 0 || !(less x y)
    | _, _ => true

/-- `less` is a strict weak ordering: irreflexive, transitive, and with a
transitive complement (the "consistency" clause of the spec). -/
def SWO (less : T → T → Bool) : Prop :=
  (∀ a, less a a = false) ∧
  (∀ a b c, less a b = true → less b c = true → less a c = true) ∧
  (∀ a b c, less a b = false → less b c = false → less a c = false)

/-- `less` has no ties between distinct values: incomparable values are
equal. Together with `SWO` this makes `less` a strict total order. -/
def NoTies (less : T → T → Bool) : Prop :=
  ∀ a b, less a b = false → less b a = false → a = b

/-! ## Basic facts about the ordering assumptions -/

theorem swo_irrefl {less : T → T → Bool} (hs : SWO less) (a : T) :
    less a a = false := hs.1 a

theorem swo_trans {less : T → T → Bool} (hs : SWO less) {a b c : T}
    (h1 : less a b = true) (h2 : less b c = true) : less a c = true :=
  hs.2.1 a b c h1 h2

theorem swo_negtrans {less : T → T → Bool} (hs : SWO less) {a b c : T}
    (h1 : less a b = false) (h2 : less b c = false) : less a c = false :=
  hs.2.2 a b c h1 h2

theorem swo_asymm {less : T → T → Bool} (hs : SWO less) {a b : T}
    (h : less a b = true) : less b a = false := by
  by_contra hba
  have hba' : less b a = true := by
    cases hb : less b a with
    | false => exact absurd hb hba
    | true => rfl
  have : less a a = true := swo_trans hs h hba'
  rw [swo_irrefl hs a] at this
  exact Bool.false_ne_true this

theorem swo_nlt_right {less : T → T → Bool} (hs : SWO less) {a b c : T}
    (h1 : less a b = true) (h2 : less a c = false) : less b c = false := by
  cases hv : less b c with
  | false => rfl
  | true =>
    have := swo_trans hs h1 hv
    rw [h2] at this
    exact absurd this Bool.false_ne_true

theorem swo_nlt_left {less : T → T → Bool} (hs : SWO less) {a b c : T}
    (h1 : less b c = true) (h2 : less a c = false) : less a b = false := by
  cases hv : less a b with
  | false => rfl
  | true =>
    have := swo_trans hs hv h1
    rw [h2] at this
    exact absurd this Bool.false_ne_true

/-! ## Index arithmetic -/

theorem chld_pos {p c : Nat} (h : chld p c) : 1 ≤ c := by
  rcases h with h | h <;> omega

theorem chld_lt {p c : Nat} (h : chld p c) : p < c := by
  rcases h with h | h <;> omega

theorem chld_eq_par {p c : Nat} (h : chld p c) : p = par c := by
  rcases h with h | h <;> (unfold par; omega)

theorem chld_par_self {c : Nat} (h : 1 ≤ c) : chld (par c) c := by
  unfold chld par; omega

theorem par_lt {c : Nat} (h : 1 ≤ c) : par c < c := by
  unfold par; omega

/-- Go's `(j-1)/2` on a nonnegative `j`, as the `Nat`-level parent. -/
theorem tdiv_pred_two (j : Nat) (h1 : 1 ≤ j) :
    Int.tdiv ((j : Int) - 1) 2 = ((par j : Nat) : Int) := by
  have h2 : ((j : Int) - 1) = (((j - 1 : Nat) : Nat) : Int) := by omega
  rw [h2, show ((2 : Int)) = ((2 : Nat) : Int) from rfl, ← Int.ofNat_tdiv]
  unfold par
  norm_num

theorem tdiv_two_cast (n : Nat) :
    Int.tdiv (n : Int) 2 = ((n / 2 : Nat) : Int) := by
  rw [show ((2 : Int)) = ((2 : Nat) : Int) from rfl, ← Int.ofNat_tdiv]

theorem tdiv_neg_one : Int.tdiv (-1) 2 = 0 := by decide

theorem tdiv_ne_self_of_le_neg_two {i : Int} (h : i ≤ -2) :
    Int.tdiv (i - 1) 2 ≠ i := by
  have ha : i - 1 = -(1 - i) := by ring
  rw [ha, Int.neg_tdiv]
  have h0 : (0 : Int) ≤ 1 - i := by omega
  rw [Int.tdiv_eq_ediv h0 (by omega)]
  omega

/-! ## Reads, writes and swaps -/

theorem idx_natCast (h : List T) (k : Nat) : idx h (k : Int) = h[k]? := by
  simp [idx]

theorem idx_neg (h : List T) {i : Int} (hi : i < 0) : idx h i = none := by
  simp [idx]; omega

theorem idx_none_of_ge (h : List T) {i : Int} (hi : (h.length : Int) ≤ i) :
    idx h i = none := by
  unfold idx
  split
  · exact List.getElem?_eq_none (by omega)
  · rfl

theorem getElem?_some_of_lt (h : List T) (k : Nat) (hk : k < h.length) :
    ∃ x, h[k]? = some x :=
  ⟨h[k], List.getElem?_eq_getElem hk⟩

theorem setIdx_natCast (h : List T) (k : Nat) (x : T) :
    setIdx h (k : Int) x = h.set k x := by
  simp [setIdx]

/-- `swapAt` at `Nat` positions, in terms of `List.set`. -/
theorem swapAt_natCast (h : List T) (i j : Nat) (xi xj : T) :
    swapAt h (i : Int) (j : Int) xi xj = (h.set i xj).set j xi := by
  simp [swapAt, setIdx]

theorem length_swapAt_natCast (h : List T) (i j : Nat) (xi xj : T) :
    (swapAt h (i : Int) (j : Int) xi xj).length = h.length := by
  rw [swapAt_natCast]; simp

theorem swapAt_getElem?_left (h : List T) {i j : Nat} (hne : i ≠ j)
    (hi : i < h.length) (xi xj : T) :
    (swapAt h (i : Int) (j : Int) xi xj)[i]? = some xj := by
  rw [swapAt_natCast, List.getElem?_set_ne (Ne.symm hne), List.getElem?_set_self hi]

theorem swapAt_getElem?_right (h : List T) {j : Nat} (hj : j < h.length)
    (i : Nat) (xi xj : T) :
    (swapAt h (i : Int) (j : Int) xi xj)[j]? = some xi := by
  rw [swapAt_natCast, List.getElem?_set_self (by simpa using hj)]

theorem swapAt_getElem?_other (h : List T) {i j k : Nat}
    (hki : k ≠ i) (hkj : k ≠ j) (xi xj : T) :
    (swapAt h (i : Int) (j : Int) xi xj)[k]? = h[k]? := by
  rw [swapAt_natCast, List.getElem?_set_ne (Ne.symm hkj),
    List.getElem?_set_ne (Ne.symm hki)]

/-- Replacing position `k` (holding `v`) by `w` and re-adjoining `v` in front
is a permutation of adjoining `w` in front. -/
theorem cons_set_perm (l : List T) (k : Nat) (v w : T) (hk : l[k]? = some v) :
    List.Perm (v :: l.set k w) (w :: l) := by
  induction l generalizing k with
  | nil => simp at hk
  | cons a t ih =>
    cases k with
    | zero =>
      simp only [List.getElem?_cons_zero, Option.some_inj] at hk
      subst hk
      simp only [List.set_cons_zero]
      exact List.Perm.swap w a t
    | succ k =>
      simp only [List.getElem?_cons_succ] at hk
      have p1 := ih k hk
      simp only [List.set_cons_succ]
      refine List.Perm.trans (List.Perm.swap a v _) ?_
      refine List.Perm.trans (List.Perm.cons a p1) ?_
      exact List.Perm.swap w a t

theorem swapAt_perm (h : List T) {i j : Nat} (hne : i ≠ j) {xi xj : T}
    (hxi : h[i]? = some xi) (hxj : h[j]? = some xj) :
    List.Perm (swapAt h (i : Int) (j : Int) xi xj) h := by
  rw [swapAt_natCast]
  have h1 : (h.set i xj)[j]? = some xj := by
    rw [List.getElem?_set_ne hne]; exact hxj
  have p1 : List.Perm (xj :: (h.set i xj).set j xi) (xi :: h.set i xj) :=
    cons_set_perm (h.set i xj) j xj xi h1
  have p2 : List.Perm (xi :: h.set i xj) (xj :: h) := cons_set_perm h i xi xj hxi
  exact (List.Perm.cons_inv (p1.trans p2) : _)

/-- The last element of a list of length `m+1`, via `drop`. -/
theorem drop_last {l : List T} {m : Nat} {v : T} (hlen : l.length = m + 1)
    (hv : l[m]? = some v) : l.drop m = [v] := by
  have hm : m < l.length := by omega
  rw [List.drop_eq_getElem_cons hm]
  have : l[m] = v := by
    have hg := List.getElem?_eq_getElem hm
    rw [hg] at hv
    exact Option.some_inj.mp hv
  rw [this]
  have : l.drop (m + 1) = [] := by
    apply List.drop_eq_nil_of_le; omega
  rw [this]

theorem take_append_last {l : List T} {m : Nat} {v : T}
    (hlen : l.length = m + 1) (hv : l[m]? = some v) : l.take m ++ [v] = l := by
  conv_rhs => rw [← List.take_append_drop m l]
  rw [drop_last hlen hv]

/-! ## Ancestors in the complete-binary-tree layout -/

/-- `Anc a d`: `a` is a (reflexive) ancestor of position `d`. -/
inductive Anc : Nat → Nat → Prop
  | refl (a : Nat) : Anc a a
  | step {a p c : Nat} : Anc a p → chld p c → Anc a c

theorem Anc.le {a d : Nat} (h : Anc a d) : a ≤ d := by
  induction h with
  | refl => exact Nat.le_refl _
  | step _ hc ih => exact Nat.le_trans ih (Nat.le_of_lt (chld_lt hc))

theorem anc_child {p c : Nat} (h : chld p c) : Anc p c :=
  Anc.step (Anc.refl p) h

theorem anc_trans {a b c : Nat} (h1 : Anc a b) (h2 : Anc b c) : Anc a c := by
  induction h2 with
  | refl => exact h1
  | step _ hc ih => exact Anc.step ih hc

theorem anc_par_of_ne {a d : Nat} (h : Anc a d) (hne : a ≠ d) :
    1 ≤ d ∧ Anc a (par d) := by
  cases h with
  | refl => exact absurd rfl hne
  | step hp hc =>
    refine ⟨chld_pos hc, ?_⟩
    rw [← chld_eq_par hc]
    exact hp

theorem anc_zero : ∀ d : Nat, Anc 0 d := by
  intro d
  induction d using Nat.strong_induction_on with
  | _ d ih =>
    match d with
    | 0 => exact Anc.refl 0
    | e + 1 =>
      exact Anc.step (ih (par (e + 1)) (par_lt (by omega))) (chld_par_self (by omega))

/-- In a heap that is valid on its first `n` positions, every position is
heap-ordered against each of its ancestors (not just its parent). -/
theorem chainOK {less : T → T → Bool} (hs : SWO less) {h : List T} {n : Nat}
    (hn : n ≤ h.length) (hInv : HeapInvN less h n) :
    ∀ a d : Nat, Anc a d → d < n → EdgeOK less h a d := by
  intro a d hanc
  induction hanc with
  | refl =>
    intro _ x y hx hy
    rw [hx] at hy
    cases hy
    exact swo_irrefl hs x
  | step hp hc ih =>
    rename_i p c
    intro hcn x y hx hy
    have hpn : p < n := Nat.lt_trans (chld_lt hc) hcn
    obtain ⟨z, hz⟩ := getElem?_some_of_lt h p (Nat.lt_of_lt_of_le hpn hn)
    have h1 : less x z = false := hInv p c hc hcn x z hx hz
    have h2 : less z y = false := ih hpn z y hz hy
    exact swo_negtrans hs h1 h2

/-! ## Transport of edge validity between lists agreeing on positions -/

theorem EdgeOK_transport {less : T → T → Bool} {h h' : List T} {p c : Nat}
    (hc : h'[c]? = h[c]?) (hp : h'[p]? = h[p]?) (he : EdgeOK less h p c) :
    EdgeOK less h' p c := by
  intro x y hx hy
  rw [hc] at hx
  rw [hp] at hy
  exact he x y hx hy

/-! ## The executable invariant check agrees with `HeapInv` -/

theorem heapChk_iff {less : T → T → Bool} {h : List T} :
    heapChk less h = true ↔ HeapInv less h := by
  unfold heapChk HeapInv
  rw [List.all_eq_true]
  constructor
  · intro hall p c hpc x y hx hy
    have hc1 : 1 ≤ c := chld_pos hpc
    have hclen : c < h.length := by
      by_contra hge
      rw [List.getElem?_eq_none (by omega)] at hx
      cases hx
    have hmem : c ∈ List.range h.length := List.mem_range.mpr hclen
    have hf := hall c hmem
    have hpeq : p = (c - 1) / 2 := by
      have := chld_eq_par hpc
      unfold par at this
      exact this
    rw [← hpeq, hx, hy] at hf
    simp only [Bool.or_eq_true, beq_iff_eq, Bool.not_eq_eq_eq_not, Bool.not_true] at hf
    rcases hf with hf | hf
    · omega
    · simpa using hf
  · intro hinv c _
    cases hc : h[c]? with
    | none => rfl
    | some x =>
      cases hp : h[(c - 1) / 2]? with
      | none => rfl
      | some y =>
        rcases Nat.eq_zero_or_pos c with hc0 | hc1
        · subst hc0; simp
        · have hchld : chld ((c - 1) / 2) c := chld_par_self hc1
          have := hinv _ c hchld x y hc hp
          simp [this]

/-! ## The selected child in `down` -/

theorem selChild_spec (less : T → T → Bool) (h : List T) (n j1 : Nat)
    (hn : n ≤ h.length) (hj1 : j1 < n) :
    ∃ x1, h[j1]? = some x1 ∧
      ((¬ j1 + 1 < n ∧ selChild less h (n : Int) (j1 : Int) = some (j1 : Int)) ∨
       (j1 + 1 < n ∧ ∃ x2, h[j1 + 1]? = some x2 ∧
         ((less x2 x1 = true ∧
             selChild less h (n : Int) (j1 : Int) = some ((j1 + 1 : Nat) : Int)) ∨
          (less x2 x1 = false ∧
             selChild less h (n : Int) (j1 : Int) = some (j1 : Int))))) := by
  obtain ⟨x1, hx1⟩ := getElem?_some_of_lt h j1 (Nat.lt_of_lt_of_le hj1 hn)
  refine ⟨x1, hx1, ?_⟩
  unfold selChild
  by_cases h2 : j1 + 1 < n
  · right
    refine ⟨h2, ?_⟩
    obtain ⟨x2, hx2⟩ := getElem?_some_of_lt h (j1 + 1) (Nat.lt_of_lt_of_le h2 hn)
    refine ⟨x2, hx2, ?_⟩
    rw [if_pos (by omega)]
    rw [show ((j1 : Int) + 1) = ((j1 + 1 : Nat) : Int) from by push_cast; ring]
    rw [idx_natCast, idx_natCast, hx1, hx2]
    by_cases hlt : less x2 x1 = true
    · left
      exact ⟨hlt, by simp [hlt]⟩
    · have hlt' : less x2 x1 = false := by simpa using hlt
      right
      exact ⟨hlt', by simp [hlt']⟩
  · left
    refine ⟨h2, ?_⟩
    rw [if_neg (by omega)]

/-! ## Preservation of the `down` loop invariant across one swap -/

/-- One swap step of `down` preserves the loop invariant. `i` is the current
hole, `j` the selected child being promoted, `xi`, `xj` their values, and the
swap condition `less xj xi` holds. `P` restricts which parents' edges are
claimed (`fun _ => True` for the callers that repair a single hole,
`fun p => t ≤ p` for heapify). -/
theorem LI_swap {less : T → T → Bool} (hs : SWO less) (P : Nat → Prop)
    (i0 : Nat) (hP : ∀ p c, chld p c → Anc i0 p → P c)
    {h : List T} {n i j : Nat} (hn : n ≤ h.length)
    (hanc : Anc i0 i) (hij : chld i j) (hjn : j < n)
    {xi xj : T} (hxi : h[i]? = some xi) (hxj : h[j]? = some xj)
    (hsw : less xj xi = true)
    (hsib : ∀ o xo, chld i o → o < n → o ≠ j → h[o]? = some xo →
      less xo xj = false)
    (hA : ∀ p c, chld p c → c < n → p ≠ i → c ≠ i → P p → EdgeOK less h p c)
    (hB : ∀ c, chld i c → c < n → ∀ a, Anc a i → a ≠ i → P a →
      EdgeOK less h a c)
    (hC0 : i ≠ i0 → P (par i0) → EdgeOK less h (par i0) i0) :
    let h1 := swapAt h (i : Int) (j : Int) xi xj
    (∀ p c, chld p c → c < n → p ≠ j → c ≠ j → P p → EdgeOK less h1 p c) ∧
    (∀ c, chld j c → c < n → ∀ a, Anc a j → a ≠ j → P a → EdgeOK less h1 a c) ∧
    (j ≠ i0 → P (par j) → EdgeOK less h1 (par j) j) ∧
    (j ≠ i0 → P (par i0) → EdgeOK less h1 (par i0) i0) := by
  intro h1
  have hilt : i < j := chld_lt hij
  have hilen : i < h.length := by omega
  have hjlen : j < h.length := by omega
  have hne : i ≠ j := by omega
  have h1i : h1[i]? = some xj := swapAt_getElem?_left h hne hilen xi xj
  have h1j : h1[j]? = some xi := swapAt_getElem?_right h hjlen i xi xj
  have h1o : ∀ k : Nat, k ≠ i → k ≠ j → h1[k]? = h[k]? := fun k hki hkj =>
    swapAt_getElem?_other h hki hkj xi xj
  have hPj : P j := hP i j hij hanc
  -- the key fact: the promoted child is heap-ordered against every proper
  -- ancestor `a` of `i` with `P a`
  have hup : ∀ a, Anc a i → a ≠ i → P a → ∀ y, h[a]? = some y →
      less xj y = false := by
    intro a ha hane hPa y hy
    exact hB j hij hjn a ha hane hPa xj y hxj hy
  refine ⟨?_, ?_, ?_, ?_⟩
  · -- (A) at the new hole j
    intro p c hpc hcn hpj hcj hPp
    by_cases hci : c = i
    · -- the edge from `par i` into the hole position, now holding xj
      subst hci
      have hc1 : 1 ≤ c := chld_pos hpc
      have hppar : p = par c := chld_eq_par hpc
      intro x y hx hy
      rw [h1i] at hx
      cases hx
      have hplt : p < c := chld_lt hpc
      have hpy : h[p]? = some y := by
        rw [← h1o p (by omega) (by omega)]; exact hy
      exact hup p (by rw [hppar]; exact anc_child (chld_par_self hc1))
        (by omega) hPp y hpy
    · by_cases hpi : p = i
      · -- edge from i to the sibling of j
        subst hpi
        intro x y hx hy
        rw [h1i] at hy
        cases hy
        have hcs : h[c]? = some x := by
          rw [← h1o c hci hcj]; exact hx
        exact hsib c x hpc hcn hcj hcs
      · -- edge not touching i or j
        exact EdgeOK_transport (h1o c hci hcj) (h1o p hpi hpj)
          (hA p c hpc hcn hpi hci hPp)
  · -- (B) at the new hole j
    intro c hjc hcn a haj hanej hPa
    have hcj : j < c := chld_lt hjc
    have hci : c ≠ i := by omega
    have hccj : c ≠ j := by omega
    have hparj : par j = i := (chld_eq_par hij).symm
    obtain ⟨-, hai'⟩ := anc_par_of_ne haj hanej
    rw [hparj] at hai'
    -- first: the value at c is heap-ordered against xj
    have hcxj : ∀ x, h[c]? = some x → less x xj = false := by
      intro x hx
      exact hA j c hjc hcn (by omega) hci hPj x xj hx hxj
    by_cases hai : a = i
    · subst hai
      intro x y hx hy
      rw [h1i] at hy
      cases hy
      have : h[c]? = some x := by rw [← h1o c hci hccj]; exact hx
      exact hcxj x this
    · have haltI : a < i := by
        have := hai'.le
        omega
      intro x y hx hy
      have hxc : h[c]? = some x := by rw [← h1o c hci hccj]; exact hx
      have hya : h[a]? = some y := by
        rw [← h1o a (by omega) (by omega)]; exact hy
      exact swo_negtrans hs (hcxj x hxc) (hup a hai' hai hPa y hya)
  · -- (C) at the new hole j
    intro _ _
    rw [(chld_eq_par hij).symm]
    intro x y hx hy
    rw [h1j] at hx
    rw [h1i] at hy
    cases hx
    cases hy
    exact swo_asymm hs hsw
  · -- (C0) at the new hole j
    intro hji0 hPpar
    by_cases hii0 : i = i0
    · subst hii0
      rcases Nat.eq_zero_or_pos i with h0 | h1'
      · subst h0
        intro x y hx hy
        rw [show par 0 = 0 from rfl] at hy
        rw [h1i] at hx
        rw [h1i] at hy
        cases hx
        cases hy
        exact swo_irrefl hs xj
      · intro x y hx hy
        rw [h1i] at hx
        cases hx
        have hpar : h[par i]? = some y := by
          rw [← h1o (par i) (by have := par_lt h1'; omega)
            (by have := par_lt h1'; omega)]
          exact hy
        exact hup (par i) (anc_child (chld_par_self h1')) (by have := par_lt h1'; omega)
          hPpar y hpar
    · have hi0lt : i0 < i := by
        have := hanc.le
        omega
      have hpar_lt : par i0 ≤ i0 := by unfold par; omega
      exact EdgeOK_transport (h1o i0 (by omega) (by omega))
        (h1o (par i0) (by omega) (by omega)) (hC0 hii0 hPpar)

/-! ## The master specification of the `down` loop -/

/-- Full specification of `downLoopFuel`, by induction along the loop. The
loop starts at `i0`; `i` is the current state, `P` restricts the set of
parents whose edges are tracked. See `LI_swap` for the invariant. -/
theorem downLoop_master {less : T → T → Bool} (hs : SWO less) (P : Nat → Prop)
    (i0 : Nat) (hP : ∀ p c, chld p c → Anc i0 p → P c) :
    ∀ (fuel : Nat) (h : List T) (n i : Nat), n ≤ h.length → n - i < fuel →
    Anc i0 i →
    (∀ p c, chld p c → c < n → p ≠ i → c ≠ i → P p → EdgeOK less h p c) →
    (∀ c, chld i c → c < n → ∀ a, Anc a i → a ≠ i → P a → EdgeOK less h a c) →
    (i ≠ i0 → P (par i) → EdgeOK less h (par i) i) →
    (i ≠ i0 → P (par i0) → EdgeOK less h (par i0) i0) →
    ∃ (h' : List T) (i' : Nat),
      downLoopFuel less (n : Int) fuel h (i : Int) = some (h', (i' : Int)) ∧
      i ≤ i' ∧ Anc i0 i' ∧ (i' = i → h' = h) ∧
      h'.length = h.length ∧ List.Perm h' h ∧
      (∀ k : Nat, k < i ∨ n ≤ k → h'[k]? = h[k]?) ∧
      (∀ p c, chld p c → c < n → P p → c ≠ i0 → EdgeOK less h' p c) ∧
      (i' ≠ i0 → P (par i0) → EdgeOK less h' (par i0) i0) := by
  intro fuel
  induction fuel with
  | zero => intro h n i hn hf; omega
  | succ fuel ih =>
    intro h n i hn hf hanc hA hB hC hC0
    simp only [downLoopFuel]
    by_cases hbr : n ≤ 2 * i + 1
    · -- no children within the logical length: the loop exits at once
      rw [if_pos (by left; omega)]
      refine ⟨h, i, rfl, Nat.le_refl i, hanc, fun _ => rfl, rfl, List.Perm.refl h,
        fun k _ => rfl, ?_, fun hii0 hPp => hC0 hii0 hPp⟩
      intro p c hpc hcn hPp hci0
      by_cases hpi : p = i
      · subst hpi
        have := chld_lt hpc
        rcases hpc with h1 | h1 <;> omega
      · by_cases hci : c = i
        · subst hci
          rw [chld_eq_par hpc] at hPp ⊢
          exact hC hci0 hPp
        · exact hA p c hpc hcn hpi hci hPp
    · -- there is at least the left child: select, compare, maybe swap
      rw [if_neg (by omega)]
      have hj1n : 2 * i + 1 < n := by omega
      have hiln : i < n := by omega
      have hcast : (2 * (i : Int) + 1) = ((2 * i + 1 : Nat) : Int) := by
        push_cast; ring
      rw [hcast]
      obtain ⟨x1, hx1, hscn⟩ := selChild_spec less h n (2 * i + 1) hn hj1n
      obtain ⟨xi, hxi⟩ := getElem?_some_of_lt h i (by omega)
      -- uniform continuation after child selection
      have continue_with : ∀ (j : Nat) (xj : T), chld i j → j < n →
          h[j]? = some xj →
          (∀ o xo, chld i o → o < n → o ≠ j → h[o]? = some xo →
            less xo xj = false) →
          (less xj xi = false → ∀ c, chld i c → c < n → EdgeOK less h i c) →
          ∃ (h' : List T) (i' : Nat),
            (match idx h (j : Int), idx h (i : Int) with
              | some xj', some xi' =>
                if less xj' xi' then
                  downLoopFuel less (n : Int) fuel
                    (swapAt h (i : Int) (j : Int) xi' xj') (j : Int)
                else some (h, (i : Int))
              | _, _ => none) = some (h', (i' : Int)) ∧
            i ≤ i' ∧ Anc i0 i' ∧ (i' = i → h' = h) ∧
            h'.length = h.length ∧ List.Perm h' h ∧
            (∀ k : Nat, k < i ∨ n ≤ k → h'[k]? = h[k]?) ∧
            (∀ p c, chld p c → c < n → P p → c ≠ i0 → EdgeOK less h' p c) ∧
            (i' ≠ i0 → P (par i0) → EdgeOK less h' (par i0) i0) := by
        intro j xj hij hjn hxj hsib hbrk
        rw [idx_natCast, idx_natCast, hxj, hxi]
        by_cases hsw : less xj xi = true
        · simp only [hsw, if_true]
          obtain ⟨LA, LB, LC, LC0⟩ := LI_swap hs P i0 hP hn hanc hij hjn hxi hxj
            hsw hsib hA hB hC0
          have hlen1 : (swapAt h (i : Int) (j : Int) xi xj).length = h.length :=
            length_swapAt_natCast h i j xi xj
          have hanc1 : Anc i0 j := Anc.step hanc hij
          have hilt : i < j := chld_lt hij
          obtain ⟨h', i', heq, hii', hanc', hsame, hlen', hperm', hframe',
            hedges', hlast'⟩ :=
            ih (swapAt h (i : Int) (j : Int) xi xj) n j (by omega) (by omega)
              hanc1 LA LB LC LC0
          refine ⟨h', i', heq, by omega, hanc', ?_, by omega, ?_, ?_, hedges',
            hlast'⟩
          · intro he; omega
          · exact hperm'.trans (swapAt_perm h (by omega) hxi hxj)
          · intro k hk
            have hkj : k < j ∨ n ≤ k := by omega
            rw [hframe' k hkj]
            exact swapAt_getElem?_other h (by omega) (by omega) xi xj
        · have hsw' : less xj xi = false := by simpa using hsw
          simp only [hsw', Bool.false_eq_true, if_false]
          refine ⟨h, i, rfl, Nat.le_refl i, hanc, fun _ => rfl, rfl,
            List.Perm.refl h, fun k _ => rfl, ?_, fun hii0 hPp => hC0 hii0 hPp⟩
          intro p c hpc hcn hPp hci0
          by_cases hpi : p = i
          · subst hpi
            exact hbrk hsw' c hpc hcn
          · by_cases hci : c = i
            · subst hci
              rw [chld_eq_par hpc] at hPp ⊢
              exact hC (fun he => hci0 he) hPp
            · exact hA p c hpc hcn hpi hci hPp
      rcases hscn with ⟨hnR, hsel⟩ | ⟨hR, x2, hx2, hcase⟩
      · -- only the left child exists
        rw [hsel]
        exact continue_with (2 * i + 1) x1 (Or.inl rfl) hj1n hx1
          (by intro o xo ho hon honj hxo
              rcases ho with ho | ho
              · omega
              · omega)
          (by intro hb c hc hcn
              rcases hc with hc | hc
              · subst hc
                intro x y hx hy
                rw [hx1] at hx
                rw [hxi] at hy
                cases hx; cases hy
                exact hb
              · omega)
      · rcases hcase with ⟨hlt, hsel⟩ | ⟨hlt, hsel⟩
        · -- the right child exists and is strictly smaller: it is selected
          rw [hsel]
          exact continue_with (2 * i + 2) x2 (Or.inr rfl)
            (by omega) (by rw [show 2 * i + 2 = 2 * i + 1 + 1 from rfl]; exact hx2)
            (by intro o xo ho hon honj hxo
                have ho1 : o = 2 * i + 1 := by rcases ho with h' | h' <;> omega
                subst ho1
                rw [hx1] at hxo
                cases hxo
                exact swo_asymm hs hlt)
            (by intro hb c hc hcn
                rcases hc with hc | hc
                · subst hc
                  intro x y hx hy
                  rw [hx1] at hx
                  rw [hxi] at hy
                  cases hx; cases hy
                  exact swo_nlt_right hs hlt hb
                · subst hc
                  intro x y hx hy
                  rw [show 2 * i + 2 = 2 * i + 1 + 1 from rfl] at hx
                  rw [hx2] at hx
                  rw [hxi] at hy
                  cases hx; cases hy
                  exact hb)
        · -- both children exist, the left child is selected
          rw [hsel]
          exact continue_with (2 * i + 1) x1 (Or.inl rfl) hj1n hx1
            (by intro o xo ho hon honj hxo
                have ho2 : o = 2 * i + 2 := by rcases ho with h' | h' <;> omega
                subst ho2
                rw [show 2 * i + 2 = 2 * i + 1 + 1 from rfl] at hxo
                rw [hx2] at hxo
                cases hxo
                exact hlt)
            (by intro hb c hc hcn
                rcases hc with hc | hc
                · subst hc
                  intro x y hx hy
                  rw [hx1] at hx
                  rw [hxi] at hy
                  cases hx; cases hy
                  exact hb
                · subst hc
                  intro x y hx hy
                  rw [show 2 * i + 2 = 2 * i + 1 + 1 from rfl] at hx
                  rw [hx2] at hx
                  rw [hxi] at hy
                  cases hx; cases hy
                  exact swo_negtrans hs hlt hb)

/-- Specification of the `down` wrapper. `P` restricts the tracked parents as
in `downLoop_master`; the preconditions say the heap is valid except possibly
on the edges incident to `i0`, and that the children of `i0` are
heap-ordered against every tracked proper ancestor of `i0`. -/
theorem down_spec {less : T → T → Bool} (hs : SWO less) (P : Nat → Prop)
    (i0 : Nat) (hP : ∀ p c, chld p c → Anc i0 p → P c)
    {h : List T} (n : Nat) (hn : n ≤ h.length)
    (hA : ∀ p c, chld p c → c < n → p ≠ i0 → c ≠ i0 → P p → EdgeOK less h p c)
    (hB : ∀ c, chld i0 c → c < n → ∀ a, Anc a i0 → a ≠ i0 → P a →
      EdgeOK less h a c) :
    ∃ (h' : List T) (moved : Bool),
      down h (i0 : Int) (n : Int) less = some (h', moved) ∧
      h'.length = h.length ∧ List.Perm h' h ∧
      (∀ k : Nat, k < i0 ∨ n ≤ k → h'[k]? = h[k]?) ∧
      (∀ p c, chld p c → c < n → P p → c ≠ i0 → EdgeOK less h' p c) ∧
      (moved = false → h' = h) ∧
      (moved = true → P (par i0) → EdgeOK less h' (par i0) i0) := by
  obtain ⟨h', i', heq, hii', -, hsame, hlen', hperm', hframe', hedges',
    hlast'⟩ :=
    downLoop_master hs P i0 hP (n + 1) h n i0 hn (by omega) (Anc.refl i0) hA hB
      (fun hne => absurd rfl hne) (fun hne => absurd rfl hne)
  refine ⟨h', decide ((i' : Int) > (i0 : Int)), ?_, hlen', hperm', hframe',
    hedges', ?_, ?_⟩
  · unfold down
    rw [show ((n : Int).toNat + 1) = n + 1 from by simp]
    rw [heq]
    rfl
  · intro hd
    have hng : ¬ ((i' : Int) > (i0 : Int)) := of_decide_eq_false hd
    exact hsame (by omega)
  · intro hd hPp
    have hg : (i' : Int) > (i0 : Int) := of_decide_eq_true hd
    exact hlast' (by omega) hPp

/-! ## Totality of the loops (no ordering assumptions) -/

theorem downLoop_total (less : T → T → Bool) :
    ∀ (fuel : Nat) (h : List T) (n i : Nat), n ≤ h.length → n - i < fuel →
    ∃ (h' : List T) (i' : Nat),
      downLoopFuel less (n : Int) fuel h (i : Int) = some (h', (i' : Int)) ∧
      i ≤ i' ∧ (i' = i → h' = h) ∧ h'.length = h.length ∧ List.Perm h' h ∧
      (∀ k : Nat, k < i ∨ n ≤ k → h'[k]? = h[k]?) := by
  intro fuel
  induction fuel with
  | zero => intro h n i hn hf; omega
  | succ fuel ih =>
    intro h n i hn hf
    simp only [downLoopFuel]
    by_cases hbr : n ≤ 2 * i + 1
    · rw [if_pos (by left; omega)]
      exact ⟨h, i, rfl, Nat.le_refl i, fun _ => rfl, rfl, List.Perm.refl h,
        fun k _ => rfl⟩
    · rw [if_neg (by omega)]
      have hj1n : 2 * i + 1 < n := by omega
      rw [show (2 * (i : Int) + 1) = ((2 * i + 1 : Nat) : Int) from by
        push_cast; ring]
      obtain ⟨x1, hx1, hscn⟩ := selChild_spec less h n (2 * i + 1) hn hj1n
      obtain ⟨xi, hxi⟩ := getElem?_some_of_lt h i (by omega)
      have continue_with : ∀ (j : Nat) (xj : T), i < j → j < n →
          h[j]? = some xj →
          ∃ (h' : List T) (i' : Nat),
            (match idx h (j : Int), idx h (i : Int) with
              | some xj', some xi' =>
                if less xj' xi' then
                  downLoopFuel less (n : Int) fuel
                    (swapAt h (i : Int) (j : Int) xi' xj') (j : Int)
                else some (h, (i : Int))
              | _, _ => none) = some (h', (i' : Int)) ∧
            i ≤ i' ∧ (i' = i → h' = h) ∧
            h'.length = h.length ∧ List.Perm h' h ∧
            (∀ k : Nat, k < i ∨ n ≤ k → h'[k]? = h[k]?) := by
        intro j xj hij hjn hxj
        rw [idx_natCast, idx_natCast, hxj, hxi]
        by_cases hsw : less xj xi = true
        · simp only [hsw, if_true]
          have hlen1 : (swapAt h (i : Int) (j : Int) xi xj).length = h.length :=
            length_swapAt_natCast h i j xi xj
          obtain ⟨h', i', heq, hii', hsame, hlen', hperm', hframe'⟩ :=
            ih (swapAt h (i : Int) (j : Int) xi xj) n j (by omega) (by omega)
          refine ⟨h', i', heq, by omega, by intro he; omega, by omega, ?_, ?_⟩
          · exact hperm'.trans (swapAt_perm h (by omega) hxi hxj)
          · intro k hk
            rw [hframe' k (by omega)]
            exact swapAt_getElem?_other h (by omega) (by omega) xi xj
        · have hsw' : less xj xi = false := by simpa using hsw
          simp only [hsw', Bool.false_eq_true, if_false]
          exact ⟨h, i, rfl, Nat.le_refl i, fun _ => rfl, rfl, List.Perm.refl h,
            fun k _ => rfl⟩
      rcases hscn with ⟨hnR, hsel⟩ | ⟨hR, x2, hx2, hcase⟩
      · rw [hsel]
        exact continue_with (2 * i + 1) x1 (by omega) hj1n hx1
      · rcases hcase with ⟨hlt, hsel⟩ | ⟨hlt, hsel⟩
        · rw [hsel]
          exact continue_with (2 * i + 2) x2 (by omega) (by omega)
            (by rw [show 2 * i + 2 = 2 * i + 1 + 1 from rfl]; exact hx2)
        · rw [hsel]
          exact continue_with (2 * i + 1) x1 (by omega) hj1n hx1

theorem down_total (less : T → T → Bool) (h : List T) (n i0 : Nat)
    (hn : n ≤ h.length) :
    ∃ (h' : List T) (moved : Bool),
      down h (i0 : Int) (n : Int) less = some (h', moved) ∧
      (moved = false → h' = h) ∧ h'.length = h.length ∧ List.Perm h' h ∧
      (∀ k : Nat, k < i0 ∨ n ≤ k → h'[k]? = h[k]?) := by
  obtain ⟨h', i', heq, hii', hsame, hlen', hperm', hframe'⟩ :=
    downLoop_total less (n + 1) h n i0 hn (by omega)
  refine ⟨h', decide ((i' : Int) > (i0 : Int)), ?_, ?_, hlen', hperm', hframe'⟩
  · unfold down
    rw [show ((n : Int).toNat + 1) = n + 1 from by simp]
    rw [heq]
    rfl
  · intro hd
    have hng : ¬ ((i' : Int) > (i0 : Int)) := of_decide_eq_false hd
    exact hsame (by omega)

/-- When the heap is already valid below `i`, the `down` loop exits without
swapping and reports that no swap happened. -/
theorem down_noswap {less : T → T → Bool} {h : List T} {n i : Nat}
    (hn : n ≤ h.length)
    (hval : ∀ c, chld i c → c < n → EdgeOK less h i c) :
    down h (i : Int) (n : Int) less = some (h, false) := by
  unfold down
  rw [show ((n : Int).toNat + 1) = n + 1 from by simp]
  have hloop : downLoopFuel less (n : Int) (n + 1) h (i : Int) =
      some (h, (i : Int)) := by
    cases hn1 : n + 1 with
    | zero => omega
    | succ fuel =>
      simp only [downLoopFuel]
      by_cases hbr : n ≤ 2 * i + 1
      · rw [if_pos (by left; omega)]
      · rw [if_neg (by omega)]
        have hj1n : 2 * i + 1 < n := by omega
        rw [show (2 * (i : Int) + 1) = ((2 * i + 1 : Nat) : Int) from by
          push_cast; ring]
        obtain ⟨x1, hx1, hscn⟩ := selChild_spec less h n (2 * i + 1) hn hj1n
        obtain ⟨xi, hxi⟩ := getElem?_some_of_lt h i (by omega)
        have hv1 : less x1 xi = false :=
          hval (2 * i + 1) (Or.inl rfl) hj1n x1 xi hx1 hxi
        rcases hscn with ⟨hnR, hsel⟩ | ⟨hR, x2, hx2, hcase⟩
        · rw [hsel]
          simp only [idx_natCast, hx1, hxi, hv1, Bool.false_eq_true, if_false]
        · have hv2 : less x2 xi = false :=
            hval (2 * i + 2) (Or.inr rfl) (by omega) x2 xi
              (by rw [show 2 * i + 2 = 2 * i + 1 + 1 from rfl]; exact hx2) hxi
          rcases hcase with ⟨hlt, hsel⟩ | ⟨hlt, hsel⟩
          · rw [hsel]
            simp only [idx_natCast, hx2, hxi, hv2, Bool.false_eq_true, if_false]
          · rw [hsel]
            simp only [idx_natCast, hx1, hxi, hv1, Bool.false_eq_true, if_false]
  rw [hloop]
  simp

/-! ## The master specification of the `up` loop -/

/-- Full specification of `upFuel`. `m ≤ len h` is the logical length whose
edges are tracked (`RemoveFunc` runs `up` on a list one longer than the
logical heap). Precondition: every edge not pointing into `j` is valid, and
the children of `j` are heap-ordered against the parent of `j`. -/
theorem upFuel_master {less : T → T → Bool} (hs : SWO less) :
    ∀ (fuel : Nat) (h : List T) (m j : Nat), m ≤ h.length → j < m → j < fuel →
    (∀ p c, chld p c → c < m → c ≠ j → EdgeOK less h p c) →
    (1 ≤ j → ∀ c, chld j c → c < m → EdgeOK less h (par j) c) →
    ∃ h', upFuel less fuel h (j : Int) = some h' ∧
      h'.length = h.length ∧ List.Perm h' h ∧
      (∀ k : Nat, j < k → h'[k]? = h[k]?) ∧
      (∀ p c, chld p c → c < m → EdgeOK less h' p c) := by
  intro fuel
  induction fuel with
  | zero => intro h m j hm hj hf; omega
  | succ fuel ih =>
    intro h m j hm hj hf hAu hBu
    simp only [upFuel]
    rcases Nat.eq_zero_or_pos j with hj0 | hj1
    · subst hj0
      rw [if_pos (by decide)]
      refine ⟨h, rfl, rfl, List.Perm.refl h, fun k _ => rfl, ?_⟩
      intro p c hpc hcm
      exact hAu p c hpc hcm (by have := chld_pos hpc; omega)
    · rw [tdiv_pred_two j hj1]
      rw [if_neg (by have := par_lt hj1; omega)]
      obtain ⟨xj, hxj⟩ := getElem?_some_of_lt h j (by omega)
      obtain ⟨xi, hxi⟩ := getElem?_some_of_lt h (par j) (by have := par_lt hj1; omega)
      rw [idx_natCast, idx_natCast, hxj, hxi]
      have hplt : par j < j := par_lt hj1
      have hchld : chld (par j) j := chld_par_self hj1
      by_cases hsw : less xj xi = true
      · simp only [hsw, if_true]
        have hlen1 : (swapAt h ((par j : Nat) : Int) (j : Int) xi xj).length
            = h.length := length_swapAt_natCast h (par j) j xi xj
        have h1i : (swapAt h ((par j : Nat) : Int) (j : Int) xi xj)[par j]?
            = some xj := swapAt_getElem?_left h (by omega) (by omega) xi xj
        have h1j : (swapAt h ((par j : Nat) : Int) (j : Int) xi xj)[j]?
            = some xi := swapAt_getElem?_right h (by omega) (par j) xi xj
        have h1o : ∀ k : Nat, k ≠ par j → k ≠ j →
            (swapAt h ((par j : Nat) : Int) (j : Int) xi xj)[k]? = h[k]? :=
          fun k hki hkj => swapAt_getElem?_other h hki hkj xi xj
        -- invariant at the new position `par j`
        have hAu' : ∀ p c, chld p c → c < m → c ≠ par j →
            EdgeOK less (swapAt h ((par j : Nat) : Int) (j : Int) xi xj) p c := by
          intro p c hpc hcm hcp
          by_cases hcj : c = j
          · subst hcj
            have hpp : p = par c := chld_eq_par hpc
            rw [hpp, ← chld_eq_par hchld] at *
            intro x y hx hy
            rw [h1j] at hx
            rw [h1i] at hy
            cases hx; cases hy
            exact swo_asymm hs hsw
          · by_cases hpj : p = j
            · subst hpj
              have hcgt : p < c := chld_lt hpc
              intro x y hx hy
              rw [h1j] at hy
              cases hy
              have hxc : h[c]? = some x := by
                rw [← h1o c (by omega) (by omega)]; exact hx
              exact hBu hj1 c hpc hcm x xi hxc hxi
            · by_cases hpi : p = par j
              · subst hpi
                -- c is the sibling of j under par j
                intro x y hx hy
                rw [h1i] at hy
                cases hy
                have hxc : h[c]? = some x := by
                  rw [← h1o c hcp hcj]; exact hx
                have hcxi : less x xi = false :=
                  hAu (par j) c hpc hcm hcj x xi hxc hxi
                exact swo_nlt_left hs hsw hcxi
              · exact EdgeOK_transport (h1o c hcp hcj) (h1o p hpi hpj)
                  (hAu p c hpc hcm hcj)
        have hBu' : 1 ≤ par j → ∀ c, chld (par j) c → c < m →
            EdgeOK less (swapAt h ((par j : Nat) : Int) (j : Int) xi xj)
              (par (par j)) c := by
          intro hp1 c hpc hcm
          have hgp : par (par j) < par j := par_lt hp1
          have hgpeq : chld (par (par j)) (par j) := chld_par_self hp1
          have hgpo : (swapAt h ((par j : Nat) : Int) (j : Int) xi xj)[par (par j)]?
              = h[par (par j)]? := h1o (par (par j)) (by omega) (by omega)
          by_cases hcj : c = j
          · subst hcj
            intro x y hx hy
            rw [h1j] at hx
            cases hx
            rw [hgpo] at hy
            exact hAu (par (par c)) (par c) hgpeq (by omega) (by omega) xi y hxi hy
          · have hco : (swapAt h ((par j : Nat) : Int) (j : Int) xi xj)[c]?
                = h[c]? := h1o c (by have := chld_lt hpc; omega) hcj
            intro x y hx hy
            rw [hco] at hx
            rw [hgpo] at hy
            have h1 : less x xi = false := hAu (par j) c hpc hcm hcj x xi hx hxi
            have h2 : less xi y = false :=
              hAu (par (par j)) (par j) hgpeq (by omega) (by omega) xi y hxi hy
            exact swo_negtrans hs h1 h2
        obtain ⟨h', heq, hlen', hperm', hframe', hedges'⟩ :=
          ih (swapAt h ((par j : Nat) : Int) (j : Int) xi xj) m (par j)
            (by omega) (by omega) (by omega) hAu' hBu'
        refine ⟨h', heq, by omega, ?_, ?_, hedges'⟩
        · exact hperm'.trans (swapAt_perm h (by omega) hxi hxj)
        · intro k hk
          rw [hframe' k (by omega)]
          exact h1o k (by omega) (by omega)
      · have hsw' : less xj xi = false := by simpa using hsw
        simp only [hsw', Bool.false_eq_true, if_false]
        refine ⟨h, rfl, rfl, List.Perm.refl h, fun k _ => rfl, ?_⟩
        intro p c hpc hcm
        by_cases hcj : c = j
        · subst hcj
          rw [chld_eq_par hpc]
          intro x y hx hy
          rw [hxj] at hx
          rw [hxi] at hy
          cases hx; cases hy
          exact hsw'
        · exact hAu p c hpc hcm hcj

/-- Specification of the `up` wrapper. -/
theorem up_spec {less : T → T → Bool} (hs : SWO less) {h : List T} (m j : Nat)
    (hm : m ≤ h.length) (hj : j < m)
    (hAu : ∀ p c, chld p c → c < m → c ≠ j → EdgeOK less h p c)
    (hBu : 1 ≤ j → ∀ c, chld j c → c < m → EdgeOK less h (par j) c) :
    ∃ h', up h (j : Int) less = some h' ∧
      h'.length = h.length ∧ List.Perm h' h ∧
      (∀ k : Nat, j < k → h'[k]? = h[k]?) ∧
      (∀ p c, chld p c → c < m → EdgeOK less h' p c) := by
  obtain ⟨h', heq, hrest⟩ :=
    upFuel_master hs (j + 1) h m j hm hj (by omega) hAu hBu
  refine ⟨h', ?_, hrest⟩
  unfold up
  rw [show ((j : Int).toNat + 1) = j + 1 from by simp]
  exact heq

theorem upFuel_total (less : T → T → Bool) :
    ∀ (fuel : Nat) (h : List T) (j : Nat), j < h.length → j < fuel →
    ∃ h', upFuel less fuel h (j : Int) = some h' ∧
      h'.length = h.length ∧ List.Perm h' h ∧
      (∀ k : Nat, j < k → h'[k]? = h[k]?) := by
  intro fuel
  induction fuel with
  | zero => intro h j hj hf; omega
  | succ fuel ih =>
    intro h j hj hf
    simp only [upFuel]
    rcases Nat.eq_zero_or_pos j with hj0 | hj1
    · subst hj0
      rw [if_pos (by decide)]
      exact ⟨h, rfl, rfl, List.Perm.refl h, fun k _ => rfl⟩
    · rw [tdiv_pred_two j hj1]
      rw [if_neg (by have := par_lt hj1; omega)]
      obtain ⟨xj, hxj⟩ := getElem?_some_of_lt h j hj
      obtain ⟨xi, hxi⟩ := getElem?_some_of_lt h (par j) (by have := par_lt hj1; omega)
      rw [idx_natCast, idx_natCast, hxj, hxi]
      have hplt : par j < j := par_lt hj1
      by_cases hsw : less xj xi = true
      · simp only [hsw, if_true]
        have hlen1 : (swapAt h ((par j : Nat) : Int) (j : Int) xi xj).length
            = h.length := length_swapAt_natCast h (par j) j xi xj
        obtain ⟨h', heq, hlen', hperm', hframe'⟩ :=
          ih (swapAt h ((par j : Nat) : Int) (j : Int) xi xj) (par j)
            (by omega) (by omega)
        refine ⟨h', heq, by omega, ?_, ?_⟩
        · exact hperm'.trans (swapAt_perm h (by omega) hxi hxj)
        · intro k hk
          rw [hframe' k (by omega)]
          exact swapAt_getElem?_other h (by omega) (by omega) xi xj
      · have hsw' : less xj xi = false := by simpa using hsw
        simp only [hsw', Bool.false_eq_true, if_false]
        exact ⟨h, rfl, rfl, List.Perm.refl h, fun k _ => rfl⟩

theorem up_total (less : T → T → Bool) (h : List T) (j : Nat)
    (hj : j < h.length) :
    ∃ h', up h (j : Int) less = some h' ∧
      h'.length = h.length ∧ List.Perm h' h ∧
      (∀ k : Nat, j < k → h'[k]? = h[k]?) := by
  obtain ⟨h', heq, hrest⟩ := upFuel_total less (j + 1) h j hj (by omega)
  refine ⟨h', ?_, hrest⟩
  unfold up
  rw [show ((j : Int).toNat + 1) = j + 1 from by simp]
  exact heq

/-- `up` at the root is an immediate no-op (Go: `(0-1)/2 == 0`). -/
theorem up_zero {less : T → T → Bool} (h : List T) :
    up h 0 less = some h := by
  show upFuel less 1 h 0 = some h
  simp only [upFuel]
  rw [if_pos (by decide)]

/-- `up` at an in-range index whose upward edge is already valid is a no-op. -/
theorem up_noop {less : T → T → Bool} {h : List T} {j : Nat}
    (hj : j < h.length) (hval : EdgeOK less h (par j) j) :
    up h (j : Int) less = some h := by
  rcases Nat.eq_zero_or_pos j with hj0 | hj1
  · subst hj0
    rw [show ((0 : Nat) : Int) = 0 from rfl]
    exact up_zero h
  · unfold up
    rw [show ((j : Int).toNat + 1) = j + 1 from by simp]
    simp only [upFuel]
    rw [tdiv_pred_two j hj1]
    rw [if_neg (by have := par_lt hj1; omega)]
    obtain ⟨xj, hxj⟩ := getElem?_some_of_lt h j hj
    obtain ⟨xi, hxi⟩ := getElem?_some_of_lt h (par j) (by have := par_lt hj1; omega)
    rw [idx_natCast, idx_natCast, hxj, hxi]
    have := hval xj xi hxj hxi
    simp only [this, Bool.false_eq_true, if_false]

/-! ## Bridges between the invariant forms -/

theorem heapInvN_full {less : T → T → Bool} {h : List T}
    (hinv : HeapInvN less h h.length) : HeapInv less h := by
  intro p c hpc x y hx hy
  by_cases hc : c < h.length
  · exact hinv p c hpc hc x y hx hy
  · rw [List.getElem?_eq_none (by omega)] at hx
    cases hx

theorem heapInv_toN {less : T → T → Bool} {h : List T} (n : Nat)
    (hinv : HeapInv less h) : HeapInvN less h n :=
  fun p c hpc _ => hinv p c hpc

/-- Validity of a prefix: the heap invariant restricted to `n` transfers to
`take n`. -/
theorem heapInv_take {less : T → T → Bool} {h : List T} {n : Nat}
    (hinv : HeapInvN less h n) : HeapInv less (h.take n) := by
  intro p c hpc x y hx hy
  rw [List.getElem?_take] at hx hy
  by_cases hc : c < n
  · rw [if_pos hc] at hx
    have hp : p < n := by have := chld_lt hpc; omega
    rw [if_pos hp] at hy
    exact hinv p c hpc hc x y hx hy
  · rw [if_neg hc] at hx
    cases hx

/-! ## Heapify -/

theorem initLoop_spec {less : T → T → Bool} (hs : SWO less) :
    ∀ (fuel : Nat) (h : List T) (n k : Nat), n ≤ h.length → k < fuel →
    (∀ p c, chld p c → c < n → k ≤ p → EdgeOK less h p c) →
    ∃ h', initLoopFuel less (n : Int) fuel h ((k : Int) - 1) = some h' ∧
      h'.length = h.length ∧ List.Perm h' h ∧ HeapInvN less h' n := by
  intro fuel
  induction fuel with
  | zero => intro h n k hn hf; omega
  | succ fuel ih =>
    intro h n k hn hf hInv
    simp only [initLoopFuel]
    cases k with
    | zero =>
      rw [if_neg (by norm_num)]
      exact ⟨h, rfl, rfl, List.Perm.refl h,
        fun p c hpc hcn => hInv p c hpc hcn (Nat.zero_le p)⟩
    | succ k =>
      rw [show ((k + 1 : Nat) : Int) - 1 = ((k : Nat) : Int) from by
        push_cast; ring]
      rw [if_pos (by omega)]
      obtain ⟨h1, moved, heqd, hlen1, hperm1, hframe1, hedges1, -, -⟩ :=
        down_spec hs (fun p => k ≤ p) k
          (fun p c hpc hanc => by
            have h1 := Anc.le hanc
            have h2 := chld_lt hpc
            omega)
          n hn
          (fun p c hpc hcn hp hc hPp => hInv p c hpc hcn (by omega))
          (fun c hc hcn a ha hane hPa => by
            have := Anc.le ha
            omega)
      rw [heqd]
      have hInv1 : ∀ p c, chld p c → c < n → k ≤ p → EdgeOK less h1 p c := by
        intro p c hpc hcn hkp
        by_cases hck : c = k
        · subst hck
          have h1' := chld_pos hpc
          have h2' := chld_eq_par hpc
          have h3' := par_lt h1'
          omega
        · exact hedges1 p c hpc hcn hkp hck
      obtain ⟨h', heq', hlen', hperm', hinv'⟩ :=
        ih h1 n k (by omega) (by omega) hInv1
      exact ⟨h', heq', by omega, hperm'.trans hperm1, hinv'⟩

theorem InitFunc_spec {less : T → T → Bool} (hs : SWO less) (h : List T) :
    ∃ h', InitFunc h less = some h' ∧ h'.length = h.length ∧
      List.Perm h' h ∧ HeapInv less h' := by
  simp only [InitFunc, tdiv_two_cast, Int.toNat_natCast]
  obtain ⟨h', heq, hlen, hperm, hinv⟩ :=
    initLoop_spec hs (h.length / 2 + 1) h h.length (h.length / 2) le_rfl
      (by omega)
      (fun p c hpc hcn hp => absurd hcn (by rcases hpc with h' | h' <;> omega))
  refine ⟨h', heq, hlen, hperm, heapInvN_full ?_⟩
  rw [hlen]
  exact hinv

theorem initLoop_total {less : T → T → Bool} :
    ∀ (fuel : Nat) (h : List T) (n k : Nat), n ≤ h.length → k < fuel →
    ∃ h', initLoopFuel less (n : Int) fuel h ((k : Int) - 1) = some h' ∧
      h'.length = h.length ∧ List.Perm h' h := by
  intro fuel
  induction fuel with
  | zero => intro h n k hn hf; omega
  | succ fuel ih =>
    intro h n k hn hf
    simp only [initLoopFuel]
    cases k with
    | zero =>
      rw [if_neg (by norm_num)]
      exact ⟨h, rfl, rfl, List.Perm.refl h⟩
    | succ k =>
      rw [show ((k + 1 : Nat) : Int) - 1 = ((k : Nat) : Int) from by
        push_cast; ring]
      rw [if_pos (by omega)]
      obtain ⟨h1, moved, heqd, -, hlen1, hperm1, -⟩ :=
        down_total less h n k hn
      rw [heqd]
      obtain ⟨h', heq', hlen', hperm'⟩ := ih h1 n k (by omega) (by omega)
      exact ⟨h', heq', by omega, hperm'.trans hperm1⟩

theorem InitFunc_total (less : T → T → Bool) (h : List T) :
    ∃ h', InitFunc h less = some h' ∧ h'.length = h.length ∧
      List.Perm h' h := by
  simp only [InitFunc, tdiv_two_cast, Int.toNat_natCast]
  exact initLoop_total (h.length / 2 + 1) h h.length (h.length / 2) le_rfl
    (by omega)

theorem initLoop_noop {less : T → T → Bool} {h : List T} {n : Nat}
    (hn : n ≤ h.length) (hval : HeapInvN less h n) :
    ∀ (fuel k : Nat), k < fuel →
      initLoopFuel less (n : Int) fuel h ((k : Int) - 1) = some h := by
  intro fuel
  induction fuel with
  | zero => intro k hf; omega
  | succ fuel ih =>
    intro k hf
    simp only [initLoopFuel]
    cases k with
    | zero => rw [if_neg (by norm_num)]
    | succ k =>
      rw [show ((k + 1 : Nat) : Int) - 1 = ((k : Nat) : Int) from by
        push_cast; ring]
      rw [if_pos (by omega)]
      rw [down_noswap hn (fun c hc hcn => hval k c hc hcn)]
      exact ih k (by omega)

theorem InitFunc_noop {less : T → T → Bool} {h : List T}
    (hval : HeapInv less h) : InitFunc h less = some h := by
  simp only [InitFunc, tdiv_two_cast, Int.toNat_natCast]
  exact initLoop_noop le_rfl (heapInv_toN h.length hval) (h.length / 2 + 1)
    (h.length / 2) (by omega)

/-! ## List plumbing for the public operations -/

theorem append_getElem?_lt (h : List T) (x : T) {k : Nat} (hk : k < h.length) :
    (h ++ [x])[k]? = h[k]? := by
  rw [List.getElem?_append]
  rw [if_pos hk]

theorem idx_zero (h : List T) : idx h 0 = h[0]? := by
  simp [idx]

theorem setIdx_zero (h : List T) (v : T) : setIdx h 0 v = h.set 0 v := rfl

/-- The permutation bookkeeping shared by `PopFunc` and `RemoveFunc`: if `g`
is a permutation of `h` with its `iN`-th element overwritten by the last
element `lst`, and `g` still has `lst` in last position, then re-adjoining
the removed value `x` to `g.take m` recovers a permutation of `h`. -/
theorem remove_take_perm {h g : List T} {iN m : Nat} {x lst : T}
    (hx : h[iN]? = some x)
    (hglen : g.length = m + 1) (hgm : g[m]? = some lst)
    (hperm : List.Perm g (h.set iN lst)) :
    List.Perm (x :: g.take m) h := by
  have h1 : g.take m ++ [lst] = g := take_append_last hglen hgm
  have h2 : List.Perm (x :: g) (x :: h.set iN lst) := hperm.cons x
  have h3 : List.Perm (x :: h.set iN lst) (lst :: h) := cons_set_perm h iN x lst hx
  have h4 : List.Perm ((x :: g.take m) ++ [lst]) (h ++ [lst]) := by
    rw [show (x :: g.take m) ++ [lst] = x :: (g.take m ++ [lst]) from rfl, h1]
    exact (h2.trans h3).trans (List.perm_append_singleton lst h).symm
  exact (List.perm_append_right_iff [lst]).mp h4

/-! ## `PushFunc` -/

theorem PushFunc_spec {less : T → T → Bool} (hs : SWO less) {h : List T}
    (hinv : HeapInv less h) (x : T) :
    ∃ h', PushFunc h x less = some h' ∧ h'.length = h.length + 1 ∧
      List.Perm h' (h ++ [x]) ∧ HeapInv less h' := by
  unfold PushFunc
  have hlapp : (h ++ [x]).length = h.length + 1 := by simp
  rw [show ((h ++ [x]).length : Int) - 1 = ((h.length : Nat) : Int) from by
    rw [hlapp]; push_cast; ring]
  obtain ⟨h', heq, hlen', hperm', hframe', hvalid'⟩ :=
    up_spec hs (h.length + 1) h.length (le_of_eq hlapp.symm) (by omega)
      (fun p c hpc hcm hcj => by
        have hplt := chld_lt hpc
        have hcl : c < h.length := by omega
        have h1 : (h ++ [x])[c]? = h[c]? := append_getElem?_lt h x hcl
        have h2 : (h ++ [x])[p]? = h[p]? := append_getElem?_lt h x (by omega)
        exact EdgeOK_transport h1 h2 (hinv p c hpc))
      (fun h1 c hc hcm => by
        rcases hc with hc | hc <;> omega)
  refine ⟨h', heq, by omega, hperm', heapInvN_full ?_⟩
  intro p c hpc hcn
  exact hvalid' p c hpc (by omega)

theorem PushFunc_total (less : T → T → Bool) (h : List T) (x : T) :
    ∃ h', PushFunc h x less = some h' ∧ h'.length = h.length + 1 ∧
      List.Perm h' (h ++ [x]) := by
  unfold PushFunc
  have hlapp : (h ++ [x]).length = h.length + 1 := by simp
  rw [show ((h ++ [x]).length : Int) - 1 = ((h.length : Nat) : Int) from by
    rw [hlapp]; push_cast; ring]
  obtain ⟨h', heq, hlen', hperm', -⟩ :=
    up_total less (h ++ [x]) h.length (by omega)
  exact ⟨h', heq, by omega, hperm'⟩

/-! ## `PopFunc` -/

theorem PopFunc_spec {less : T → T → Bool} (hs : SWO less) {h : List T}
    (hinv : HeapInv less h) (hne : h ≠ []) :
    ∃ x h', PopFunc h less = some (x, h') ∧ h[0]? = some x ∧
      h'.length = h.length - 1 ∧ List.Perm (x :: h') h ∧ HeapInv less h' ∧
      (∀ y ∈ h, less y x = false) := by
  obtain ⟨m, hlen⟩ : ∃ m, h.length = m + 1 :=
    ⟨h.length - 1, by have := List.length_pos.mpr hne; omega⟩
  obtain ⟨x, hx⟩ := getElem?_some_of_lt h 0 (by omega)
  obtain ⟨lst, hlst⟩ := getElem?_some_of_lt h m (by omega)
  have hcast : ((h.length : Int) - 1) = ((m : Nat) : Int) := by
    rw [hlen]; push_cast; ring
  simp only [PopFunc, hcast, idx_zero, idx_natCast, hx, hlst, setIdx_zero,
    Int.toNat_natCast]
  have hto : ((h.set 0 lst).take m).length = m := by
    rw [List.length_take, List.length_set]
    omega
  obtain ⟨h', moved, heqd, hlen', hperm', hframe', hedges', hmvF, hmvT⟩ :=
    down_spec hs (fun _ => True) 0 (fun p c hpc hanc => trivial)
      m (le_of_eq hto.symm)
      (fun p c hpc hcn hp hc hPp => by
        have hplt := chld_lt hpc
        refine EdgeOK_transport ?_ ?_ (hinv p c hpc)
        · rw [List.getElem?_take, if_pos hcn, List.getElem?_set_ne (Ne.symm hc)]
        · rw [List.getElem?_take, if_pos (by omega), List.getElem?_set_ne (Ne.symm hp)])
      (fun c hc hcn a ha hane hPa => by
        have := ha.le
        omega)
  rw [show ((0 : Nat) : Int) = (0 : Int) from by norm_num] at heqd
  simp only [heqd]
  have hfin : h'.length = h.length - 1 := by rw [hlen', hto]; omega
  refine ⟨x, h', rfl, rfl, hfin, ?_, heapInvN_full ?_, ?_⟩
  · refine List.Perm.trans (List.Perm.cons x hperm') ?_
    exact remove_take_perm hx (by rw [List.length_set]; omega)
      (by
        by_cases hm0 : m = 0
        · subst hm0
          have hlx : lst = x := Option.some_inj.mp (hlst.symm.trans hx)
          subst hlx
          exact List.getElem?_set_self (by omega)
        · rw [List.getElem?_set_ne (by omega : (0 : Nat) ≠ m)]
          exact hlst)
      (List.Perm.refl _)
  · intro p c hpc hcn
    have hc0 := chld_pos hpc
    exact hedges' p c hpc (by omega) trivial (by omega)
  · intro y hy
    obtain ⟨d, hd⟩ := List.mem_iff_getElem?.mp hy
    have hdlt : d < h.length := by
      rcases List.getElem?_eq_some.mp hd with ⟨hw, -⟩
      exact hw
    exact chainOK hs le_rfl (heapInv_toN h.length hinv) 0 d (anc_zero d) hdlt
      y x hd hx

theorem PopFunc_total (less : T → T → Bool) {h : List T} (hne : h ≠ []) :
    ∃ x h', PopFunc h less = some (x, h') ∧ h[0]? = some x ∧
      h'.length = h.length - 1 ∧ List.Perm (x :: h') h := by
  obtain ⟨m, hlen⟩ : ∃ m, h.length = m + 1 :=
    ⟨h.length - 1, by have := List.length_pos.mpr hne; omega⟩
  obtain ⟨x, hx⟩ := getElem?_some_of_lt h 0 (by omega)
  obtain ⟨lst, hlst⟩ := getElem?_some_of_lt h m (by omega)
  have hcast : ((h.length : Int) - 1) = ((m : Nat) : Int) := by
    rw [hlen]; push_cast; ring
  simp only [PopFunc, hcast, idx_zero, idx_natCast, hx, hlst, setIdx_zero,
    Int.toNat_natCast]
  have hto : ((h.set 0 lst).take m).length = m := by
    rw [List.length_take, List.length_set]
    omega
  obtain ⟨h', moved, heqd, hmvF, hlen', hperm', hframe'⟩ :=
    down_total less ((h.set 0 lst).take m) m 0 (le_of_eq hto.symm)
  rw [show ((0 : Nat) : Int) = (0 : Int) from by norm_num] at heqd
  simp only [heqd]
  have hfin : h'.length = h.length - 1 := by rw [hlen', hto]; omega
  refine ⟨x, h', rfl, rfl, hfin, ?_⟩
  refine List.Perm.trans (List.Perm.cons x hperm') ?_
  exact remove_take_perm hx (by rw [List.length_set]; omega)
    (by
      by_cases hm0 : m = 0
      · subst hm0
        have hlx : lst = x := Option.some_inj.mp (hlst.symm.trans hx)
        subst hlx
        exact List.getElem?_set_self (by omega)
      · rw [List.getElem?_set_ne (by omega : (0 : Nat) ≠ m)]
        exact hlst)
    (List.Perm.refl _)

/-! ## Shared preconditions for `RemoveFunc` and `FixFunc`: a valid heap with
one overwritten position -/

theorem set_hA {less : T → T → Bool} {h : List T} (hinv : HeapInv less h)
    (iN : Nat) (w : T) :
    ∀ p c, chld p c → p ≠ iN → c ≠ iN → EdgeOK less (h.set iN w) p c := by
  intro p c hpc hp hc
  exact EdgeOK_transport (List.getElem?_set_ne (Ne.symm hc))
    (List.getElem?_set_ne (Ne.symm hp)) (hinv p c hpc)

theorem set_hB {less : T → T → Bool} (hs : SWO less) {h : List T}
    (hinv : HeapInv less h) (iN : Nat) (w : T) :
    ∀ c, chld iN c → c < h.length → ∀ a, Anc a iN → a ≠ iN →
      EdgeOK less (h.set iN w) a c := by
  intro c hc hcn a ha hane
  have haLt : a < iN := by have := ha.le; omega
  have hcgt : iN < c := chld_lt hc
  refine EdgeOK_transport (List.getElem?_set_ne (by omega))
    (List.getElem?_set_ne (by omega)) ?_
  exact chainOK hs le_rfl (heapInv_toN h.length hinv) a c
    (anc_trans ha (anc_child hc)) hcn

theorem set_hBu {less : T → T → Bool} (hs : SWO less) {h : List T}
    (hinv : HeapInv less h) (iN : Nat) (w : T) (h1N : 1 ≤ iN) :
    ∀ c, chld iN c → c < h.length → EdgeOK less (h.set iN w) (par iN) c := by
  intro c hc hcn
  have hplt : par iN < iN := par_lt h1N
  have hcgt : iN < c := chld_lt hc
  refine EdgeOK_transport (List.getElem?_set_ne (by omega))
    (List.getElem?_set_ne (by omega)) ?_
  exact chainOK hs le_rfl (heapInv_toN h.length hinv) (par iN) c
    (anc_trans (anc_child (chld_par_self h1N)) (anc_child hc)) hcn

/-- Writing back the value already present is the identity. -/
theorem set_self_of_getElem? {h : List T} {iN : Nat} {x : T}
    (hx : h[iN]? = some x) : h.set iN x = h := by
  apply List.ext_getElem?
  intro k
  rw [List.getElem?_set]
  by_cases hk : iN = k
  · subst hk
    rw [if_pos rfl]
    obtain ⟨hw, hv⟩ := List.getElem?_eq_some.mp hx
    rw [if_pos hw]
    exact hx.symm
  · rw [if_neg hk]

/-! ## `RemoveFunc` -/

theorem RemoveFunc_spec {less : T → T → Bool} (hs : SWO less) {h : List T}
    (hinv : HeapInv less h) (iN : Nat) (hi : iN < h.length) :
    ∃ x h', RemoveFunc h (iN : Int) less = some (x, h') ∧ h[iN]? = some x ∧
      h'.length = h.length - 1 ∧ List.Perm (x :: h') h ∧ HeapInv less h' := by
  obtain ⟨m, hlen⟩ : ∃ m, h.length = m + 1 := ⟨h.length - 1, by omega⟩
  obtain ⟨x, hx⟩ := getElem?_some_of_lt h iN hi
  obtain ⟨lst, hlst⟩ := getElem?_some_of_lt h m (by omega)
  have hcast : ((h.length : Int) - 1) = ((m : Nat) : Int) := by
    rw [hlen]; push_cast; ring
  simp only [RemoveFunc, hcast, idx_natCast, hx, hlst, setIdx_natCast,
    Int.toNat_natCast]
  by_cases him : iN = m
  · rw [if_pos (by rw [him])]
    refine ⟨x, h.take m, rfl, rfl, ?_, ?_, ?_⟩
    · rw [List.length_take]; omega
    · have hxm : h[m]? = some x := by rw [← him]; exact hx
      have hta := take_append_last hlen hxm
      have hp := (List.perm_append_singleton x (h.take m)).symm
      rw [hta] at hp
      exact hp
    · exact heapInv_take (fun p c hpc hcn => hinv p c hpc)
  · rw [if_neg (by omega)]
    have hiNm : iN < m := by omega
    obtain ⟨h2', moved, heqd, hlen2, hperm2, hframe2, hedges2, hmvF, hmvT⟩ :=
      down_spec hs (fun _ => True) iN (fun p c hpc hanc => trivial)
        m (by rw [List.length_set]; omega)
        (fun p c hpc hcn hp hc hPp => set_hA hinv iN lst p c hpc hp hc)
        (fun c hc hcn a ha hane hPa =>
          set_hB hs hinv iN lst c hc (by omega) a ha hane)
    simp only [heqd]
    have hg2len : h2'.length = m + 1 := by
      rw [hlen2, List.length_set]; omega
    have hg2m : h2'[m]? = some lst := by
      rw [hframe2 m (Or.inr (Nat.le_refl m)), List.getElem?_set_ne him]
      exact hlst
    cases hmv : moved with
    | true =>
      simp only [hmv, if_true]
      refine ⟨x, h2'.take m, rfl, rfl, by rw [List.length_take]; omega, ?_, ?_⟩
      · exact remove_take_perm hx hg2len hg2m hperm2
      · refine heapInv_take ?_
        intro p c hpc hcn
        by_cases hciN : c = iN
        · subst hciN
          rw [chld_eq_par hpc]
          exact hmvT hmv trivial
        · exact hedges2 p c hpc hcn trivial hciN
    | false =>
      simp only [hmv, Bool.false_eq_true, if_false]
      have hh2 : h2' = h.set iN lst := hmvF hmv
      subst hh2
      obtain ⟨h3, hequp, hlen3, hperm3, hframe3, hvalid3⟩ :=
        up_spec hs m iN (by rw [List.length_set]; omega) hiNm
          (fun p c hpc hcn hcj => by
            by_cases hpiN : p = iN
            · subst hpiN
              exact hedges2 p c hpc hcn trivial hcj
            · exact set_hA hinv iN lst p c hpc hpiN hcj)
          (fun h1N c hc hcn => set_hBu hs hinv iN lst h1N c hc (by omega))
      simp only [hequp]
      refine ⟨x, h3.take m, rfl, rfl, by rw [List.length_take]; omega, ?_, ?_⟩
      · refine remove_take_perm hx (by omega) ?_ hperm3
        rw [hframe3 m hiNm]
        exact hg2m
      · exact heapInv_take (fun p c hpc hcn => hvalid3 p c hpc hcn)

theorem RemoveFunc_total (less : T → T → Bool) (h : List T)
    (iN : Nat) (hi : iN < h.length) :
    ∃ x h', RemoveFunc h (iN : Int) less = some (x, h') ∧ h[iN]? = some x ∧
      h'.length = h.length - 1 ∧ List.Perm (x :: h') h := by
  obtain ⟨m, hlen⟩ : ∃ m, h.length = m + 1 := ⟨h.length - 1, by omega⟩
  obtain ⟨x, hx⟩ := getElem?_some_of_lt h iN hi
  obtain ⟨lst, hlst⟩ := getElem?_some_of_lt h m (by omega)
  have hcast : ((h.length : Int) - 1) = ((m : Nat) : Int) := by
    rw [hlen]; push_cast; ring
  simp only [RemoveFunc, hcast, idx_natCast, hx, hlst, setIdx_natCast,
    Int.toNat_natCast]
  by_cases him : iN = m
  · rw [if_pos (by rw [him])]
    refine ⟨x, h.take m, rfl, rfl, by rw [List.length_take]; omega, ?_⟩
    have hxm : h[m]? = some x := by rw [← him]; exact hx
    have hta := take_append_last hlen hxm
    have hp := (List.perm_append_singleton x (h.take m)).symm
    rw [hta] at hp
    exact hp
  · rw [if_neg (by omega)]
    have hiNm : iN < m := by omega
    obtain ⟨h2', moved, heqd, hmvF, hlen2, hperm2, hframe2⟩ :=
      down_total less (h.set iN lst) m iN (by rw [List.length_set]; omega)
    simp only [heqd]
    have hg2len : h2'.length = m + 1 := by
      rw [hlen2, List.length_set]; omega
    have hg2m : h2'[m]? = some lst := by
      rw [hframe2 m (Or.inr (Nat.le_refl m)), List.getElem?_set_ne him]
      exact hlst
    cases hmv : moved with
    | true =>
      simp only [hmv, if_true]
      exact ⟨x, h2'.take m, rfl, rfl, by rw [List.length_take]; omega,
        remove_take_perm hx hg2len hg2m hperm2⟩
    | false =>
      simp only [hmv, Bool.false_eq_true, if_false]
      have hh2 : h2' = h.set iN lst := hmvF hmv
      subst hh2
      obtain ⟨h3, hequp, hlen3, hperm3, hframe3⟩ :=
        up_total less (h.set iN lst) iN (by rw [List.length_set]; omega)
      simp only [hequp]
      refine ⟨x, h3.take m, rfl, rfl, by rw [List.length_take]; omega, ?_⟩
      refine remove_take_perm hx (by omega) ?_ hperm3
      rw [hframe3 m hiNm]
      exact hg2m

/-! ## `FixFunc` after an in-place mutation -/

theorem FixFunc_spec {less : T → T → Bool} (hs : SWO less) {h : List T}
    (hinv : HeapInv less h) (iN : Nat) (hi : iN < h.length) (v : T) :
    ∃ h', FixFunc (h.set iN v) (iN : Int) less = some h' ∧
      h'.length = h.length ∧ List.Perm h' (h.set iN v) ∧ HeapInv less h' := by
  have hlen2 : (h.set iN v).length = h.length := by rw [List.length_set]
  simp only [FixFunc, hlen2]
  obtain ⟨h', moved, heqd, hlen', hperm', hframe', hedges', hmvF, hmvT⟩ :=
    down_spec hs (fun _ => True) iN (fun p c hpc hanc => trivial)
      h.length (by rw [List.length_set])
      (fun p c hpc hcn hp hc hPp => set_hA hinv iN v p c hpc hp hc)
      (fun c hc hcn a ha hane hPa => set_hB hs hinv iN v c hc hcn a ha hane)
  simp only [heqd]
  cases hmv : moved with
  | true =>
    simp only [hmv, if_true]
    refine ⟨h', rfl, by rw [hlen', List.length_set], hperm', heapInvN_full ?_⟩
    rw [hlen', hlen2]
    intro p c hpc hcn
    by_cases hciN : c = iN
    · subst hciN
      rw [chld_eq_par hpc]
      exact hmvT hmv trivial
    · exact hedges' p c hpc hcn trivial hciN
  | false =>
    simp only [hmv, Bool.false_eq_true, if_false]
    have hh2 : h' = h.set iN v := hmvF hmv
    subst hh2
    obtain ⟨h3, hequp, hlen3, hperm3, hframe3, hvalid3⟩ :=
      up_spec hs h.length iN (by rw [List.length_set]) hi
        (fun p c hpc hcn hcj => by
          by_cases hpiN : p = iN
          · subst hpiN
            exact hedges' p c hpc hcn trivial hcj
          · exact set_hA hinv iN v p c hpc hpiN hcj)
        (fun h1N c hc hcn => set_hBu hs hinv iN v h1N c hc hcn)
    rw [hequp]
    refine ⟨h3, rfl, by rw [hlen3, List.length_set], hperm3, heapInvN_full ?_⟩
    rw [hlen3, hlen2]
    exact fun p c hpc hcn => hvalid3 p c hpc hcn

/-- On a heap that already satisfies the invariant, `FixFunc` is a no-op
(the sift-down finds no swap and the sift-up stops at once). -/
theorem FixFunc_noop {less : T → T → Bool} {h : List T}
    (hinv : HeapInv less h) (iN : Nat) (hi : iN < h.length) :
    FixFunc h (iN : Int) less = some h := by
  simp only [FixFunc]
  rw [down_noswap le_rfl (fun c hc hcn => hinv iN c hc)]
  simp only [Bool.false_eq_true, if_false]
  rcases Nat.eq_zero_or_pos iN with h0 | h1
  · subst h0
    exact up_zero h
  · exact up_noop hi (hinv (par iN) iN (chld_par_self h1))

/-! ## Iterated popping -/

theorem popN_spec {less : T → T → Bool} (hs : SWO less) :
    ∀ (k : Nat) (h : List T), HeapInv less h → k = h.length →
    ∃ out, popN less k h = some (out, []) ∧ List.Perm out h ∧
      List.Pairwise (fun a b => less b a = false) out := by
  intro k
  induction k with
  | zero =>
    intro h hinv hk
    have hnil : h = [] := List.eq_nil_of_length_eq_zero hk.symm
    subst hnil
    exact ⟨[], rfl, List.Perm.refl [], List.Pairwise.nil⟩
  | succ k ih =>
    intro h hinv hk
    have hne : h ≠ [] := by
      intro he
      subst he
      simp at hk
    obtain ⟨x, h', heq, hx, hlen', hperm', hinv', hmin⟩ :=
      PopFunc_spec hs hinv hne
    obtain ⟨out, heq2, hperm2, hpair2⟩ := ih h' hinv' (by omega)
    simp only [popN, heq, heq2]
    refine ⟨x :: out, rfl, ?_, ?_⟩
    · exact (hperm2.cons x).trans hperm'
    · rw [List.pairwise_cons]
      refine ⟨?_, hpair2⟩
      intro y hy
      have hyh : y ∈ h := hperm'.mem_iff.mp (List.mem_cons_of_mem x
        (hperm2.mem_iff.mp hy))
      exact hmin y hyh

theorem popN_total (less : T → T → Bool) :
    ∀ (k : Nat) (h : List T), k ≤ h.length →
    ∃ out rest, popN less k h = some (out, rest) ∧ out.length = k ∧
      List.Perm (out ++ rest) h := by
  intro k
  induction k with
  | zero => exact fun h _ => ⟨[], h, rfl, rfl, List.Perm.refl h⟩
  | succ k ih =>
    intro h hk
    have hne : h ≠ [] := by
      intro he
      subst he
      simp at hk
    obtain ⟨x, h', heq, hx, hlen', hperm'⟩ := PopFunc_total less hne
    obtain ⟨out, rest, heq2, hlen2, hperm2⟩ := ih h' (by omega)
    simp only [popN, heq, heq2]
    refine ⟨x :: out, rest, rfl, by simp [hlen2], ?_⟩
    exact (hperm2.cons x).trans hperm'

/-- With a strict weak ordering free of ties, the sequence of popped values
is determined by the multiset of elements: two valid heaps that are
permutations of each other pop identical sequences. -/
theorem popN_det {less : T → T → Bool} (hs : SWO less) (hnt : NoTies less) :
    ∀ (k : Nat) (g h : List T), HeapInv less g → HeapInv less h →
    List.Perm g h → k = g.length →
    ∃ out, popN less k g = some (out, []) ∧ popN less k h = some (out, []) := by
  intro k
  induction k with
  | zero =>
    intro g h hig hih hperm hk
    have hgnil : g = [] := List.eq_nil_of_length_eq_zero hk.symm
    subst hgnil
    have hhnil : h = [] := List.eq_nil_of_length_eq_zero
      (by rw [← hperm.length_eq]; exact hk.symm)
    subst hhnil
    exact ⟨[], rfl, rfl⟩
  | succ k ih =>
    intro g h hig hih hperm hk
    have hgne : g ≠ [] := by
      intro he; subst he; simp at hk
    have hhne : h ≠ [] := by
      intro he
      subst he
      rw [List.perm_nil] at hperm
      exact hgne hperm
    obtain ⟨xg, g', heqg, hxg, hleng, hpermg, hinvg', hming⟩ :=
      PopFunc_spec hs hig hgne
    obtain ⟨xh, h', heqh, hxh, hlenh, hpermh, hinvh', hminh⟩ :=
      PopFunc_spec hs hih hhne
    have hxgmem : xg ∈ g := List.mem_iff_getElem?.mpr ⟨0, hxg⟩
    have hxhmem : xh ∈ h := List.mem_iff_getElem?.mpr ⟨0, hxh⟩
    have heqx : xg = xh := by
      refine hnt xg xh ?_ ?_
      · exact hminh xg (hperm.mem_iff.mp hxgmem)
      · exact hming xh (hperm.mem_iff.mpr hxhmem)
    subst heqx
    have hperm' : List.Perm g' h' := by
      have h1 : List.Perm (xg :: g') (xg :: h') :=
        (hpermg.trans hperm).trans hpermh.symm
      exact h1.cons_inv
    obtain ⟨out, ho1, ho2⟩ := ih g' h' hinvg' hinvh' hperm' (by omega)
    exact ⟨xg :: out, by simp only [popN, heqg, ho1], by simp only [popN, heqh, ho2]⟩

/-! ## `down` commutes with truncation to the logical length

`PopFunc` truncates the slice before sifting down, `RemoveFunc` after; both
sift over the same logical length `n` and never touch positions `≥ n`. -/

theorem idx_take_eq {h : List T} {n : Nat} {k : Int} (hk : k < (n : Int)) :
    idx (h.take n) k = idx h k := by
  unfold idx
  by_cases h0 : 0 ≤ k
  · rw [if_pos h0, if_pos h0, List.getElem?_take, if_pos (by omega)]
  · rw [if_neg h0, if_neg h0]

theorem selChild_take {less : T → T → Bool} {h : List T} {n : Nat} {j1 : Int}
    (hj1 : j1 < (n : Int)) :
    selChild less (h.take n) (n : Int) j1 = selChild less h (n : Int) j1 := by
  unfold selChild
  by_cases h2 : j1 + 1 < (n : Int)
  · rw [if_pos h2, if_pos h2, idx_take_eq h2, idx_take_eq hj1]
  · rw [if_neg h2, if_neg h2]

theorem setIdx_take {h : List T} {n : Nat} {k : Int} (x : T) :
    setIdx (h.take n) k x = (setIdx h k x).take n := by
  unfold setIdx
  rw [List.set_take]

theorem downLoopFuel_take {less : T → T → Bool} :
    ∀ (fuel : Nat) (h : List T) (n : Nat) (i : Int),
    downLoopFuel less (n : Int) fuel (h.take n) i =
      (downLoopFuel less (n : Int) fuel h i).map fun p => (p.1.take n, p.2) := by
  intro fuel
  induction fuel with
  | zero => intro h n i; rfl
  | succ fuel ih =>
    intro h n i
    simp only [downLoopFuel]
    by_cases hbr : 2 * i + 1 ≥ (n : Int) ∨ 2 * i + 1 < 0
    · rw [if_pos hbr, if_pos hbr]
      rfl
    · rw [if_neg hbr, if_neg hbr]
      have hj1 : 2 * i + 1 < (n : Int) := by omega
      rw [selChild_take hj1]
      cases hsel : selChild less h (n : Int) (2 * i + 1) with
      | none => rfl
      | some j =>
        have hjlt : j < (n : Int) ∧ 0 ≤ j := by
          unfold selChild at hsel
          by_cases h2 : 2 * i + 1 + 1 < (n : Int)
          · rw [if_pos h2] at hsel
            cases hx2 : idx h (2 * i + 1 + 1) with
            | none => rw [hx2] at hsel; cases hx1 : idx h (2 * i + 1) with
              | none => rw [hx1] at hsel; cases hsel
              | some x1 => rw [hx1] at hsel; cases hsel
            | some x2 =>
              rw [hx2] at hsel
              cases hx1 : idx h (2 * i + 1) with
              | none => rw [hx1] at hsel; cases hsel
              | some x1 =>
                rw [hx1] at hsel
                simp only [Option.some_inj] at hsel
                subst hsel
                constructor
                · split <;> omega
                · split <;> omega
          · rw [if_neg h2] at hsel
            cases hsel
            omega
        have hilt : i < (n : Int) := by omega
        have hige : 0 ≤ i := by omega
        simp only [idx_take_eq hjlt.1, idx_take_eq hilt]
        cases hxj : idx h j with
        | none => rfl
        | some xj =>
          cases hxi : idx h i with
          | none => rfl
          | some xi =>
            by_cases hsw : less xj xi = true
            · simp only [hsw, if_true]
              rw [show swapAt (h.take n) i j xi xj =
                  (swapAt h i j xi xj).take n from by
                unfold swapAt
                rw [setIdx_take, setIdx_take]]
              exact ih (swapAt h i j xi xj) n j
            · have hsw' : less xj xi = false := by simpa using hsw
              simp only [hsw', Bool.false_eq_true, if_false]
              rfl

theorem down_take (less : T → T → Bool) (h : List T) (n : Nat) (i0 : Int) :
    down (h.take n) i0 (n : Int) less =
      (down h i0 (n : Int) less).map fun q => (q.1.take n, q.2) := by
  unfold down
  rw [downLoopFuel_take]
  cases downLoopFuel less (n : Int) ((n : Int).toNat + 1) h i0 with
  | none => rfl
  | some p => rfl

/-! ## Out-of-range behaviour -/

theorem idx_oob {h : List T} {i : Int} (hi : i < 0 ∨ (h.length : Int) ≤ i) :
    idx h i = none := by
  rcases hi with hi | hi
  · exact idx_neg h hi
  · exact idx_none_of_ge h hi

/-- With no children below the logical length, the `down` loop exits at once
reporting no swap; this covers every out-of-range start index. -/
theorem down_break {less : T → T → Bool} (h : List T) {n i : Int}
    (hbr : n ≤ 2 * i + 1 ∨ 2 * i + 1 < 0) :
    down h i n less = some (h, false) := by
  unfold down
  have hcond : 2 * i + 1 ≥ n ∨ 2 * i + 1 < 0 := by
    rcases hbr with hb | hb
    · exact Or.inl (by omega)
    · exact Or.inr hb
  have : downLoopFuel less n (n.toNat + 1) h i = some (h, i) := by
    simp only [downLoopFuel]
    rw [if_pos hcond]
  rw [this]
  simp

theorem up_neg_one {less : T → T → Bool} (h : List T) :
    up h (-1) less = some h := by
  show upFuel less 1 h (-1) = some h
  simp only [upFuel]
  rw [if_pos (by decide)]

/-- `up` panics at any out-of-range index other than `0` and `-1`. -/
theorem up_oob {less : T → T → Bool} (h : List T) {i : Int}
    (hi : (1 ≤ i ∧ (h.length : Int) ≤ i) ∨ i ≤ -2) :
    up h i less = none := by
  unfold up
  have hf : ∃ f, i.toNat + 1 = f + 1 := ⟨i.toNat, rfl⟩
  obtain ⟨f, hfe⟩ := hf
  rw [hfe]
  simp only [upFuel]
  have hne : Int.tdiv (i - 1) 2 ≠ i := by
    rcases hi with ⟨h1, h2⟩ | h1
    · obtain ⟨iN, hiN⟩ : ∃ iN : Nat, i = (iN : Int) := ⟨i.toNat, by omega⟩
      subst hiN
      rw [tdiv_pred_two iN (by omega)]
      have := par_lt (c := iN) (by omega)
      omega
    · exact tdiv_ne_self_of_le_neg_two h1
  rw [if_neg hne]
  rw [idx_oob (by omega)]

/-! ## Remaining support: empty heaps and `pushAll` -/

theorem heapInv_nil {less : T → T → Bool} : HeapInv less ([] : List T) := by
  intro p c hpc x y hx hy
  cases hx

theorem PopFunc_empty (less : T → T → Bool) (h : List T) (he : h.length = 0) :
    PopFunc h less = none := by
  have hnil : h = [] := List.eq_nil_of_length_eq_zero he
  subst hnil
  rfl

theorem pushAll_total (less : T → T → Bool) :
    ∀ (xs acc : List T), ∃ g, pushAll less xs acc = some g ∧
      List.Perm g (acc ++ xs) := by
  intro xs
  induction xs with
  | nil => exact fun acc => ⟨acc, rfl, by simp⟩
  | cons x xs ih =>
    intro acc
    obtain ⟨acc1, heq1, hlen1, hperm1⟩ := PushFunc_total less acc x
    obtain ⟨g, heq2, hperm2⟩ := ih acc1
    refine ⟨g, by simp only [pushAll, heq1, heq2], ?_⟩
    refine (hperm2.trans (hperm1.append_right xs)).trans ?_
    rw [List.append_assoc]
    exact List.Perm.refl _

theorem pushAll_valid {less : T → T → Bool} (hs : SWO less) :
    ∀ (xs acc : List T), HeapInv less acc →
    ∃ g, pushAll less xs acc = some g ∧ List.Perm g (acc ++ xs) ∧
      HeapInv less g := by
  intro xs
  induction xs with
  | nil => exact fun acc hv => ⟨acc, rfl, by simp, hv⟩
  | cons x xs ih =>
    intro acc hv
    obtain ⟨acc1, heq1, hlen1, hperm1, hv1⟩ := PushFunc_spec hs hv x
    obtain ⟨g, heq2, hperm2, hv2⟩ := ih acc1 hv1
    refine ⟨g, by simp only [pushAll, heq1, heq2], ?_, hv2⟩
    refine (hperm2.trans (hperm1.append_right xs)).trans ?_
    rw [List.append_assoc]
    exact List.Perm.refl _

/-! ## Concrete orderings used to instantiate and to refute the claims -/

/-- Natural strict order on `Nat`, a strict weak ordering without ties. -/
def ltNat : Nat → Nat → Bool := fun a b => decide (a < b)

theorem ltNat_swo : SWO ltNat := by
  refine ⟨fun a => by simp [ltNat], fun a b c h1 h2 => ?_, fun a b c h1 h2 => ?_⟩
  · simp only [ltNat, decide_eq_true_eq] at *
    omega
  · simp only [ltNat, decide_eq_false_iff_not] at *
    omega

theorem ltNat_noties : NoTies ltNat := by
  intro a b h1 h2
  simp only [ltNat, decide_eq_false_iff_not] at *
  omega

/-- Comparison by decade: a strict weak ordering with ties (10 and 11 are
equivalent but distinct). -/
def decadeLess : Nat → Nat → Bool := fun a b => decide (a / 10 < b / 10)

theorem decadeLess_swo : SWO decadeLess := by
  refine ⟨fun a => by simp [decadeLess], fun a b c h1 h2 => ?_,
    fun a b c h1 h2 => ?_⟩
  · simp only [decadeLess, decide_eq_true_eq] at *
    omega
  · simp only [decadeLess, decide_eq_false_iff_not] at *
    omega

/-- A non-asymmetric relation (`1` and `3` each compare before the other):
not a strict weak ordering. -/
def symmLess : Nat → Nat → Bool := fun a b =>
  (a == 1 && b == 3) || (a == 3 && b == 1)

/-- A relation whose complement is not transitive (`2` before `0` but `2`
not before `1` and `1` not before `0`): not a strict weak ordering. -/
def gapLess : Nat → Nat → Bool := fun a b => a == 2 && b == 0

/-- A symmetric pair `0`/`3`: not a strict weak ordering. -/
def pairLess : Nat → Nat → Bool := fun a b =>
  (a == 3 && b == 0) || (a == 0 && b == 3)

/-- The everywhere-true relation: not a strict weak ordering. -/
def allLess : Nat → Nat → Bool := fun _ _ => true

/-! ## The claims -/

/-- C1 (counterexample): the claim quantifies over an arbitrary `less`. With
the non-asymmetric `symmLess`, `[0,1,2]` satisfies the heap invariant, but
pushing `3` returns `[0,3,2,1]`, which violates it (`symmLess 1 3 = true` on
the edge from index 1 to its child 3). -/
theorem C1_push_cex :
    HeapInv symmLess [0, 1, 2] ∧
    PushFunc [0, 1, 2] 3 symmLess = some [0, 3, 2, 1] ∧
    ¬ HeapInv symmLess [0, 3, 2, 1] := by
  refine ⟨heapChk_iff.mp (by decide), by decide, fun hinv => ?_⟩
  exact absurd (heapChk_iff.mpr hinv) (by decide)

/-- C1 (amended: `less` must be a strict weak ordering, as §3 of the spec
requires for correctness): every public operation — heapify from an
arbitrary sequence; push from a sequence satisfying the heap invariant;
pop from a non-empty such sequence; remove-at with an in-range index; and
fix-at with an in-range index after an arbitrary overwrite at that index —
returns normally, and the resulting sequence satisfies the heap
invariant. -/
theorem C1_invariant_preservation {T : Type} (less : T → T → Bool)
    (hs : SWO less) :
    (∀ h : List T, ∃ h', InitFunc h less = some h' ∧ HeapInv less h') ∧
    (∀ (h : List T) (x : T), HeapInv less h →
      ∃ h', PushFunc h x less = some h' ∧ HeapInv less h') ∧
    (∀ h : List T, HeapInv less h → h ≠ [] →
      ∃ x h', PopFunc h less = some (x, h') ∧ HeapInv less h') ∧
    (∀ (h : List T) (i : Nat), HeapInv less h → i < h.length →
      ∃ x h', RemoveFunc h (i : Int) less = some (x, h') ∧
        HeapInv less h') ∧
    (∀ (h : List T) (i : Nat) (v : T), HeapInv less h → i < h.length →
      ∃ h', FixFunc (h.set i v) (i : Int) less = some h' ∧
        HeapInv less h') := by
  refine ⟨?_, ?_, ?_, ?_, ?_⟩
  · intro h
    obtain ⟨h1, heq1, -, -, hv⟩ := InitFunc_spec hs h
    exact ⟨h1, heq1, hv⟩
  · intro h x hinv
    obtain ⟨h1, heq1, -, -, hv⟩ := PushFunc_spec hs hinv x
    exact ⟨h1, heq1, hv⟩
  · intro h hinv hne
    obtain ⟨x1, h1, heq1, -, -, -, hv, -⟩ := PopFunc_spec hs hinv hne
    exact ⟨x1, h1, heq1, hv⟩
  · intro h i hinv hi
    obtain ⟨x1, h1, heq1, -, -, -, hv⟩ := RemoveFunc_spec hs hinv i hi
    exact ⟨x1, h1, heq1, hv⟩
  · intro h i v hinv hi
    obtain ⟨h1, heq1, -, -, hv⟩ := FixFunc_spec hs hinv i hi v
    exact ⟨h1, heq1, hv⟩

/-- C1 (witness): on the valid heap `[1,2,3]` under the natural order,
pushing `4` returns normally with a valid heap, and overwriting index `1`
with `0` then fixing at index `1` returns normally with a valid heap. -/
theorem C1_witness :
    (∃ h', PushFunc [1, 2, 3] 4 ltNat = some h' ∧ HeapInv ltNat h') ∧
    (∃ h', FixFunc (([1, 2, 3] : List Nat).set 1 0) ((1 : Nat) : Int) ltNat
      = some h' ∧ HeapInv ltNat h') := by
  have hc := C1_invariant_preservation ltNat ltNat_swo
  exact ⟨hc.2.1 [1, 2, 3] 4 (heapChk_iff.mp (by decide)),
    hc.2.2.2.2 [1, 2, 3] 1 0 (heapChk_iff.mp (by decide)) (by decide)⟩

/-- C2: heapifying an arbitrary sequence with a strict weak ordering and
popping `N = len h` times yields exactly `N` values, non-decreasing under
`less` (no later value compares strictly before an earlier one) and
multiset-equal to the original sequence, with the heap drained. -/
theorem C2_sorted_extraction {T : Type} (less : T → T → Bool) (h : List T)
    (hs : SWO less) :
    ∃ h1 out, InitFunc h less = some h1 ∧
      popN less h.length h1 = some (out, []) ∧
      out.length = h.length ∧ List.Perm out h ∧
      List.Pairwise (fun a b => less b a = false) out := by
  obtain ⟨h1, heq, hlen, hperm, hinv⟩ := InitFunc_spec hs h
  obtain ⟨out, heq2, hperm2, hpair⟩ := popN_spec hs h.length h1 hinv (by omega)
  exact ⟨h1, out, heq, heq2, by rw [hperm2.length_eq, hlen],
    hperm2.trans hperm, hpair⟩

/-- C2 (witness): the spec's concrete scenario `[5,2,8,1,9,3]` under the
natural order. -/
theorem C2_witness :
    ∃ h1 out, InitFunc [5, 2, 8, 1, 9, 3] ltNat = some h1 ∧
      popN ltNat 6 h1 = some (out, []) ∧
      out.length = 6 ∧ List.Perm out [5, 2, 8, 1, 9, 3] ∧
      List.Pairwise (fun a b => ltNat b a = false) out :=
  C2_sorted_extraction ltNat [5, 2, 8, 1, 9, 3] ltNat_swo

/-- C3 (counterexample): the claim holds only for strict weak orderings.
Under `gapLess` (whose complement is not transitive), `[0,1,9,2]` satisfies
the heap invariant, `PopFunc` returns the root `0`, yet the element `2` of
the sequence compares strictly before `0`, so the returned value is not a
minimum. -/
theorem C3_pop_min_cex :
    HeapInv gapLess [0, 1, 9, 2] ∧
    PopFunc [0, 1, 9, 2] gapLess = some (0, [2, 1, 9]) ∧
    (2 : Nat) ∈ [0, 1, 9, 2] ∧ gapLess 2 0 = true := by
  exact ⟨heapChk_iff.mp (by decide), by decide, by decide, by decide⟩

/-- C3 (amended: `less` must be a strict weak ordering): on a non-empty
sequence satisfying the heap invariant, `PopFunc` returns the value at
index 0, and no element of the sequence compares strictly before it. -/
theorem C3_pop_returns_min {T : Type} (less : T → T → Bool) (h : List T)
    (hs : SWO less) (hne : h ≠ []) (hinv : HeapInv less h) :
    ∃ x h', PopFunc h less = some (x, h') ∧ h[0]? = some x ∧
      ∀ y ∈ h, less y x = false := by
  obtain ⟨x, h', heq, hx, -, -, -, hmin⟩ := PopFunc_spec hs hinv hne
  exact ⟨x, h', heq, hx, hmin⟩

/-- C3 (witness): popping the valid heap `[1,2,3]` under the natural order. -/
theorem C3_witness :
    ∃ x h', PopFunc [1, 2, 3] ltNat = some (x, h') ∧
      ([1, 2, 3] : List Nat)[0]? = some x ∧
      ∀ y ∈ [1, 2, 3], ltNat y x = false :=
  C3_pop_returns_min ltNat [1, 2, 3] ltNat_swo (by decide)
    (heapChk_iff.mp (by decide))

/-- C4 (counterexample): `FixFunc` does not fail on every out-of-range
index. At index 0 on an empty sequence, and at index `-1` on any sequence,
it returns normally (Go computes parent `(0-1)/2 == 0` resp. `(-1-1)/2 == -1`
and the loops exit without any slice access). -/
theorem C4_fix_oob_cex :
    FixFunc ([] : List Nat) 0 ltNat = some [] ∧
    FixFunc [10, 20, 30] (-1) ltNat = some [10, 20, 30] := by
  exact ⟨by decide, by decide⟩

/-- C4 (amended): for every out-of-range `i`, `RemoveFunc` panics (`none`);
`FixFunc` panics except at `i = -1` and at `i = 0` on an empty sequence,
where it returns the sequence unchanged. -/
theorem C4_oob_failure {T : Type} (less : T → T → Bool) (h : List T) (i : Int)
    (hi : i < 0 ∨ (h.length : Int) ≤ i) :
    RemoveFunc h i less = none ∧
    ((i = -1 ∨ (i = 0 ∧ h.length = 0)) → FixFunc h i less = some h) ∧
    (¬ (i = -1 ∨ (i = 0 ∧ h.length = 0)) → FixFunc h i less = none) := by
  have hd : down h i (h.length : Int) less = some (h, false) := by
    refine down_break h ?_
    rcases hi with hb | hb
    · exact Or.inr (by omega)
    · exact Or.inl (by omega)
  have hfix : FixFunc h i less = up h i less := by
    simp only [FixFunc, hd, Bool.false_eq_true, if_false]
  refine ⟨?_, ?_, ?_⟩
  · simp only [RemoveFunc, idx_oob hi]
  · intro hcase
    rw [hfix]
    rcases hcase with hc | ⟨hc0, hcl⟩
    · subst hc
      exact up_neg_one h
    · subst hc0
      exact up_zero h
  · intro hcase
    rw [hfix]
    refine up_oob h ?_
    rcases hi with hb | hb
    · right
      omega
    · left
      constructor
      · by_contra h1
        have hi0 : i = 0 := by omega
        exact hcase (Or.inr ⟨hi0, by omega⟩)
      · exact hb

/-- C4 (witness): index 5 on the two-element sequence `[10,20]`: both
operations fail. -/
theorem C4_witness :
    RemoveFunc [10, 20] 5 ltNat = none ∧ FixFunc [10, 20] 5 ltNat = none := by
  have hc := C4_oob_failure ltNat [10, 20] 5 (by decide)
  exact ⟨hc.1, hc.2.2 (by decide)⟩

/-- C5: `PopFunc` fails (panics, modelled as `none`) exactly on a
zero-length sequence, never silently returning a default value; and
`RemoveFunc` fails exactly on an out-of-range index. In this functional
embedding a failing call produces no sequence at all, matching the spec's
requirement that the bounds/empty check happens before any mutation: both
checks are the first slice accesses the Go code performs. -/
theorem C5_empty_pop_failure {T : Type} (less : T → T → Bool) (h : List T) :
    (PopFunc h less = none ↔ h.length = 0) ∧
    (∀ i : Int, RemoveFunc h i less = none ↔
      (i < 0 ∨ (h.length : Int) ≤ i)) := by
  constructor
  · constructor
    · intro hn
      by_contra hlen
      have hne : h ≠ [] := by
        intro he
        subst he
        exact hlen rfl
      obtain ⟨x, h', heq, -⟩ := PopFunc_total less hne
      rw [heq] at hn
      cases hn
    · exact fun he => PopFunc_empty less h he
  · intro i
    constructor
    · intro hn
      by_contra hrange
      push_neg at hrange
      obtain ⟨h1, h2⟩ := hrange
      obtain ⟨iN, hiN⟩ : ∃ iN : Nat, i = (iN : Int) := ⟨i.toNat, by omega⟩
      subst hiN
      obtain ⟨x, h', heq, -⟩ := RemoveFunc_total less h iN (by omega)
      rw [heq] at hn
      cases hn
    · intro hi
      simp only [RemoveFunc, idx_oob hi]

/-- C6 (counterexample): the claim quantifies over an arbitrary `less`.
Under the non-asymmetric `pairLess`, `[0,1,2,3]` is a valid heap; removing
index 1 moves the last element `3` there, the sift-up swaps it with the
root `0`, and the result `[3,0,2]` violates the invariant
(`pairLess 0 3 = true`). The returned value, length and multiset are still
correct. -/
theorem C6_remove_cex :
    HeapInv pairLess [0, 1, 2, 3] ∧
    RemoveFunc [0, 1, 2, 3] 1 pairLess = some (1, [3, 0, 2]) ∧
    ¬ HeapInv pairLess [3, 0, 2] := by
  refine ⟨heapChk_iff.mp (by decide), by decide, fun hinv => ?_⟩
  exact absurd (heapChk_iff.mpr hinv) (by decide)

/-- C6 (amended: `less` must be a strict weak ordering): removing a valid
index from a valid heap returns the value previously stored there, shrinks
the length by exactly one, removes exactly one occurrence of that value
from the multiset, and preserves the heap invariant. -/
theorem C6_remove_correct {T : Type} (less : T → T → Bool) (h : List T)
    (i : Nat) (hs : SWO less) (hinv : HeapInv less h) (hi : i < h.length) :
    ∃ x h', RemoveFunc h (i : Int) less = some (x, h') ∧ h[i]? = some x ∧
      h'.length = h.length - 1 ∧ List.Perm (x :: h') h ∧ HeapInv less h' :=
  RemoveFunc_spec hs hinv i hi

/-- C6 (witness): removing index 1 from the heap `[1,2,3]` under the
natural order. -/
theorem C6_witness :
    ∃ x h', RemoveFunc [1, 2, 3] 1 ltNat = some (x, h') ∧
      ([1, 2, 3] : List Nat)[1]? = some x ∧ h'.length = 2 ∧
      List.Perm (x :: h') [1, 2, 3] ∧ HeapInv ltNat h' :=
  C6_remove_correct ltNat [1, 2, 3] 1 ltNat_swo (heapChk_iff.mp (by decide))
    (by decide)

/-- C7 (counterexample): with a strict weak ordering that has ties
(`decadeLess`: compare by decade), overwrite-then-fix and remove-then-push
can produce heaps whose pop-min extraction sequences differ as lists, even
though the multisets agree. Heap `[10,21,22]`, index 1, new value 20: the
fix route keeps `[10,20,22]` and extracts `[10,22,20]`; the remove/push
route builds `[10,22,20]` and extracts `[10,20,22]`. -/
theorem C7_fix_cex :
    HeapInv decadeLess [10, 21, 22] ∧
    ([10, 21, 22] : List Nat).set 1 20 = [10, 20, 22] ∧
    FixFunc [10, 20, 22] 1 decadeLess = some [10, 20, 22] ∧
    RemoveFunc [10, 21, 22] 1 decadeLess = some (21, [10, 22]) ∧
    PushFunc [10, 22] 20 decadeLess = some [10, 22, 20] ∧
    popN decadeLess 3 [10, 20, 22] = some ([10, 22, 20], []) ∧
    popN decadeLess 3 [10, 22, 20] = some ([10, 20, 22], []) ∧
    ([10, 22, 20] : List Nat) ≠ [10, 20, 22] := by
  exact ⟨heapChk_iff.mp (by decide), by decide, by decide, by decide,
    by decide, by decide, by decide, by decide⟩

/-- C7 (amended): for a strict weak ordering, overwrite-then-fix and
remove-then-push at the same index yield heaps of the same length and the
same multiset; when `less` additionally has no ties, the two heaps also
produce the same sequence of values under exhaustive pop-min extraction
(with ties, the counterexample shows the sequences can differ). -/
theorem C7_fix_equiv_remove_push {T : Type} (less : T → T → Bool)
    (h : List T) (i : Nat) (v : T) (hs : SWO less) (hinv : HeapInv less h)
    (hi : i < h.length) :
    ∃ hF x hR hP2, FixFunc (h.set i v) (i : Int) less = some hF ∧
      RemoveFunc h (i : Int) less = some (x, hR) ∧
      PushFunc hR v less = some hP2 ∧
      hF.length = hP2.length ∧ List.Perm hF hP2 ∧
      (NoTies less → ∃ out, popN less hF.length hF = some (out, []) ∧
        popN less hP2.length hP2 = some (out, [])) := by
  obtain ⟨hF, heqF, hlenF, hpermF, hinvF⟩ := FixFunc_spec hs hinv i hi v
  obtain ⟨x, hR, heqR, hx, hlenR, hpermR, hinvR⟩ := RemoveFunc_spec hs hinv i hi
  obtain ⟨hP2, heqP, hlenP, hpermP, hinvP⟩ := PushFunc_spec hs hinvR v
  have hsetR : List.Perm (h.set i v) (v :: hR) := by
    have p1 := cons_set_perm h i x v hx
    have p2 : List.Perm (v :: h) (v :: x :: hR) := (hpermR.symm).cons v
    have p3 := List.Perm.swap x v hR
    exact ((p1.trans p2).trans p3).cons_inv
  have hpermFP : List.Perm hF hP2 := by
    refine (hpermF.trans hsetR).trans ?_
    exact (List.perm_append_singleton v hR).symm.trans hpermP.symm
  refine ⟨hF, x, hR, hP2, heqF, heqR, heqP, hpermFP.length_eq, hpermFP, ?_⟩
  intro hnt
  obtain ⟨out, ho1, ho2⟩ :=
    popN_det hs hnt hF.length hF hP2 hinvF hinvP hpermFP rfl
  refine ⟨out, ho1, ?_⟩
  rw [← hpermFP.length_eq]
  exact ho2

/-- C7 (witness): heap `[1,2,3]` under the natural order, overwrite index 1
with 0. -/
theorem C7_witness :
    ∃ hF x hR hP2, FixFunc (([1, 2, 3] : List Nat).set 1 0) 1 ltNat = some hF ∧
      RemoveFunc [1, 2, 3] 1 ltNat = some (x, hR) ∧
      PushFunc hR 0 ltNat = some hP2 ∧
      hF.length = hP2.length ∧ List.Perm hF hP2 ∧
      (NoTies ltNat → ∃ out, popN ltNat hF.length hF = some (out, []) ∧
        popN ltNat hP2.length hP2 = some (out, [])) :=
  C7_fix_equiv_remove_push ltNat [1, 2, 3] 1 0 ltNat_swo
    (heapChk_iff.mp (by decide)) (by decide)

/-- C8 (counterexample): with ties (`decadeLess`), pushing `[10,11,1,0]`
one by one and popping all four yields `[1,0,10,11]`, while heapifying the
same values and popping all four yields `[0,1,11,10]` — multiset-equal but
different sequences. -/
theorem C8_duality_cex :
    pushAll decadeLess [10, 11, 1, 0] [] = some [1, 0, 10, 11] ∧
    InitFunc [10, 11, 1, 0] decadeLess = some [0, 10, 1, 11] ∧
    popN decadeLess 4 [1, 0, 10, 11] = some ([1, 0, 10, 11], []) ∧
    popN decadeLess 4 [0, 10, 1, 11] = some ([0, 1, 11, 10], []) ∧
    ([1, 0, 10, 11] : List Nat) ≠ [0, 1, 11, 10] := by
  exact ⟨by decide, by decide, by decide, by decide, by decide⟩

/-- C8 (amended): for every `less`, pushing the values in any order and then
popping all of them yields an output multiset-equal to the output of the
heapify route; when `less` is a strict weak ordering without ties, the two
outputs are equal as sequences (with ties, the counterexample shows they
can differ). -/
theorem C8_push_pop_duality {T : Type} (less : T → T → Bool) (xs : List T) :
    ∃ gP hI outP outI,
      pushAll less xs [] = some gP ∧ InitFunc xs less = some hI ∧
      popN less xs.length gP = some (outP, []) ∧
      popN less xs.length hI = some (outI, []) ∧
      List.Perm outP outI ∧
      (SWO less → NoTies less → outP = outI) := by
  obtain ⟨gP, heqg, hpermg⟩ := pushAll_total less xs []
  obtain ⟨hI, heqi, hleni, hpermi⟩ := InitFunc_total less xs
  have hgl : gP.length = xs.length := by
    have := hpermg.length_eq
    simpa using this
  obtain ⟨outP, restP, hop, holen, hoperm⟩ :=
    popN_total less xs.length gP (by omega)
  obtain ⟨outI, restI, hoi, hoilen, hoiperm⟩ :=
    popN_total less xs.length hI (by omega)
  have hrestP : restP = [] := by
    have h1 : outP.length + restP.length = gP.length := by
      have := hoperm.length_eq
      simpa using this
    have : restP.length = 0 := by omega
    exact List.eq_nil_of_length_eq_zero this
  have hrestI : restI = [] := by
    have h1 : outI.length + restI.length = hI.length := by
      have := hoiperm.length_eq
      simpa using this
    have : restI.length = 0 := by omega
    exact List.eq_nil_of_length_eq_zero this
  subst hrestP
  subst hrestI
  have hpermPI : List.Perm outP outI := by
    have h1 : List.Perm outP gP := by simpa using hoperm
    have h2 : List.Perm outI hI := by simpa using hoiperm
    have h3 : List.Perm gP xs := by simpa using hpermg
    exact ((h1.trans h3).trans hpermi.symm).trans h2.symm
  refine ⟨gP, hI, outP, outI, heqg, heqi, hop, hoi, hpermPI, ?_⟩
  intro hs hnt
  obtain ⟨gP2, heqg2, hpermg2, hinvg⟩ := pushAll_valid hs xs [] heapInv_nil
  rw [heqg] at heqg2
  cases heqg2
  obtain ⟨hI2, heqi2, -, -, hinvi⟩ := InitFunc_spec hs xs
  rw [heqi] at heqi2
  cases heqi2
  have hpermGH : List.Perm gP hI := by
    have h3 : List.Perm gP xs := by simpa using hpermg
    exact h3.trans hpermi.symm
  obtain ⟨out, ho1, ho2⟩ :=
    popN_det hs hnt xs.length gP hI hinvg hinvi hpermGH hgl.symm
  rw [hop] at ho1
  rw [hoi] at ho2
  cases ho1
  cases ho2
  rfl

/-- C9 (counterexample): the claim quantifies over an arbitrary predicate.
With the everywhere-true `allLess`, heapify of `[0,1,2]` gives `[2,1,0]`,
and heapifying again gives back `[0,1,2] ≠ [2,1,0]`: heapify is not
idempotent for a non-strict-weak-ordering predicate. -/
theorem C9_idem_cex :
    InitFunc [0, 1, 2] allLess = some [2, 1, 0] ∧
    InitFunc [2, 1, 0] allLess = some [0, 1, 2] ∧
    ([0, 1, 2] : List Nat) ≠ [2, 1, 0] := by
  exact ⟨by decide, by decide, by decide⟩

/-- C9 (amended: `less` must be a strict weak ordering): heapify is
idempotent — a second call returns its input unchanged — and on a sequence
already satisfying the heap invariant heapify changes nothing. -/
theorem C9_init_idempotent {T : Type} (less : T → T → Bool) (hs : SWO less) :
    (∀ h h1 : List T, InitFunc h less = some h1 →
      InitFunc h1 less = some h1) ∧
    (∀ h : List T, HeapInv less h → InitFunc h less = some h) := by
  constructor
  · intro h h1 heq
    obtain ⟨h2, heq2, -, -, hv⟩ := InitFunc_spec hs h
    rw [heq2] at heq
    cases heq
    exact InitFunc_noop hv
  · exact fun h hv => InitFunc_noop hv

/-- C9 (witness): heapifying `[3,1,2]` gives `[1,3,2]`; heapifying that
again returns it unchanged. -/
theorem C9_witness : InitFunc [1, 3, 2] ltNat = some [1, 3, 2] :=
  (C9_init_idempotent ltNat ltNat_swo).1 [3, 1, 2] [1, 3, 2] (by decide)

/-- C10: `PopFunc` agrees with `RemoveFunc` at index 0 on every sequence
(including the empty one, where both panic) and for every `less`: same
returned value, same resulting sequence. -/
theorem C10_pop_is_remove_at_zero {T : Type} (less : T → T → Bool)
    (h : List T) : PopFunc h less = RemoveFunc h 0 less := by
  cases hE : h.length with
  | zero =>
    have hnil : h = [] := List.eq_nil_of_length_eq_zero hE
    subst hnil
    rfl
  | succ m =>
    obtain ⟨x, hx⟩ := getElem?_some_of_lt h 0 (by omega)
    obtain ⟨lst, hlst⟩ := getElem?_some_of_lt h m (by omega)
    have hcast : ((h.length : Int) - 1) = ((m : Nat) : Int) := by
      rw [hE]; push_cast; ring
    simp only [PopFunc, RemoveFunc, hcast, idx_zero, idx_natCast, hx, hlst,
      setIdx_zero, setIdx_natCast, Int.toNat_natCast]
    cases m with
    | zero =>
      rw [if_pos (by norm_num)]
      rw [show (h.set 0 lst).take 0 = [] from rfl]
      rw [down_break ([] : List T) (Or.inl (by norm_num))]
      rfl
    | succ m' =>
      rw [if_neg (by omega)]
      obtain ⟨h2', moved, heqd, hmvF, hlen2, hperm2, hframe2⟩ :=
        down_total less (h.set 0 lst) (m' + 1) 0 (by rw [List.length_set]; omega)
      rw [show ((0 : Nat) : Int) = (0 : Int) from by norm_num] at heqd
      have hdt := down_take less (h.set 0 lst) (m' + 1) 0
      rw [heqd] at hdt
      simp only [Option.map_some'] at hdt
      simp only [hdt, heqd]
      cases hmv : moved with
      | true =>
        simp only [hmv, if_true]
      | false =>
        simp only [hmv, Bool.false_eq_true, if_false]
        rw [up_zero h2']

end Sliceheap
